import Mathlib

/-!
Verification of the minimum-cost-flow repository (cycle cancelling over a
residual graph).  The definitions below form a shallow embedding of the
C++ sources: `GraphUtils.cpp` (residual-graph construction, optimal-graph
extraction, path retrieval, bottleneck capacity, flow augmentation) and
`MinimumCostFlowAlgorithms.cpp` (the cycle-cancelling driver).

The `Graph` data structure itself is declared in `Graph.h` but its
implementation file is not part of the sources, so the primitive graph
operations are modelled from the header documentation and the spec
(marked `Modelled from the spec:` below).  The same holds for the
Edmonds-Karp and Bellman-Ford routines, of which only declarations and
callers appear in the sources.
-/

deriving instance DecidableEq for Except

namespace MCF

/-- Error outcomes of the C++ operations: `invalidArgument` models a thrown
`std::invalid_argument`, `outOfRange` a thrown `std::out_of_range` (from
`vector::at`), and `fuel` is a modelling artefact marking exhaustion of the
step budget given to a loop (unreachable for the budgets used here). -/
inductive Err where
  | invalidArgument
  | outOfRange
  | fuel
deriving Repr, DecidableEq

/-- An edge `(source, sink, capacity, cost)`; mirrors `Edge.h`
(`getWeight` is the edge cost). -/
structure Edge where
  source : Int
  sink : Int
  capacity : Int
  weight : Int
deriving Repr, DecidableEq

/-- Modelled from the spec: the `Graph` of `Graph.h` — a map from node id to
its ordered list of outgoing edges (node ids are dense, so a list of lists
indexed by node id), the starting number of nodes fixed at construction, and
the artificial-node map (association list from artificial node id to the
substituted edge). -/
structure Graph where
  startingNumNodes : Nat
  adj : List (List Edge)
  artificialNodes : List (Int × Edge)
deriving Repr, DecidableEq

/-- Modelled from the spec: `Graph(num_nodes)` constructor — `num_nodes`
empty adjacency lists, empty artificial-node map. -/
def mkGraph (n : Nat) : Graph :=
  ⟨n, List.replicate n [], []⟩

/-- Current number of nodes (`getNumNodes`). -/
def Graph.numNodes (g : Graph) : Nat := g.adj.length

/-- Adjacency list of a node, `[]` when the node id is out of range (the C++
`getNodeAdjList` throws there; the total default only matters on inputs on
which the modelled callers already fail). -/
def adjListOf (g : Graph) (i : Int) : List Edge :=
  if 0 ≤ i then g.adj.getD i.toNat [] else []

/-- Modelled from the spec: `hasEdge source sink` — whether the adjacency
list of `source` holds an edge into `sink`. -/
def hasEdge (g : Graph) (s t : Int) : Bool :=
  (adjListOf g s).any (fun e => e.sink = t)

/-- Modelled from the spec: `getEdge source sink` — the edge of `source`
into `sink`, `none` when absent (the C++ throws `invalid_argument`). -/
def getEdge (g : Graph) (s t : Int) : Option Edge :=
  (adjListOf g s).find? (fun e => e.sink = t)

/-- Capacity of the edge `s → t`, `0` when the edge is absent.  Spec-side
measuring device used to state capacity-accounting properties. -/
def capOf (g : Graph) (s t : Int) : Int :=
  match getEdge g s t with
  | some e => e.capacity
  | none => 0

/-- Modelled from the spec: `addEdge` — fails when an endpoint is negative,
an endpoint exceeds the current node count plus one (only contiguous growth),
the edge already exists, or the capacity is negative; otherwise grows the
node set as needed and appends the edge to the source's adjacency list. -/
def addEdge (g : Graph) (s t cap w : Int) : Except Err Graph :=
  if s < 0 ∨ t < 0 then .error .invalidArgument
  else if (g.adj.length : Int) < s ∨ (g.adj.length : Int) < t then .error .invalidArgument
  else if hasEdge g s t then .error .invalidArgument
  else if cap < 0 then .error .invalidArgument
  else
    let n := max g.adj.length (max (s.toNat + 1) (t.toNat + 1))
    let grown := g.adj ++ List.replicate (n - g.adj.length) []
    .ok { g with adj := grown.set s.toNat (grown.getD s.toNat [] ++ [⟨s, t, cap, w⟩]) }

/-- Modelled from the spec: `setEdgeCapacity` — fails when the edge does not
exist or the new capacity is negative; otherwise rewrites the capacity of the
edge `s → t` (at most one such edge exists by the Graph invariant). -/
def setEdgeCapacity (g : Graph) (s t c : Int) : Except Err Graph :=
  if hasEdge g s t = false then .error .invalidArgument
  else if c < 0 then .error .invalidArgument
  else .ok { g with
    adj := g.adj.set s.toNat
      ((adjListOf g s).map (fun e => if e.sink = t then { e with capacity := c } else e)) }

/-- Modelled from the spec: `removeEdge` — fails when the edge does not
exist; otherwise deletes the edge `s → t` from the source's adjacency
list. -/
def removeEdge (g : Graph) (s t : Int) : Except Err Graph :=
  if hasEdge g s t = false then .error .invalidArgument
  else .ok { g with
    adj := g.adj.set s.toNat ((adjListOf g s).filter (fun e => ¬ e.sink = t)) }

/-- `vector<int>::at` with an `int` index: a negative index converts to a
huge `size_t`, so any index outside `[0, length)` throws `out_of_range`. -/
def atInt (l : List Int) (i : Int) : Except Err Int :=
  if 0 ≤ i ∧ i.toNat < l.length then .ok (l.getD i.toNat 0) else .error .outOfRange

/-- `vector<int>::at` with a `size_t` index. -/
def atNat (l : List Int) (i : Nat) : Except Err Int :=
  match l.get? i with
  | some x => .ok x
  | none => .error .outOfRange

/-- Well-formedness of a graph, the invariant documented in `Graph.h`: every
edge's sink is a valid node id and no two edges of one adjacency list share
a sink (at most one edge per ordered pair). -/
def WF (g : Graph) : Prop :=
  ∀ l ∈ g.adj, (∀ e ∈ l, 0 ≤ e.sink ∧ e.sink < (g.adj.length : Int)) ∧
    (l.map Edge.sink).Nodup

instance (g : Graph) : Decidable (WF g) := by
  unfold WF; infer_instance

/-- The edges of a graph paired with the node index that owns them, for the
first `n` node ids, in the iteration order of the C++ double loop
`for (source = 0; source < n; source++) for (e : adjList(source))`. -/
def indexedEdgesN (g : Graph) (n : Nat) : List (Int × Edge) :=
  (List.range n).flatMap (fun i => (adjListOf g (i : Int)).map (fun e => ((i : Int), e)))

/-- All edges of a graph with their owning node index, in C++ iteration
order. -/
def indexedEdges (g : Graph) : List (Int × Edge) :=
  indexedEdgesN g g.adj.length

/-- One iteration of the edge loop of `GraphUtils::GetResidualGraph`
(`GraphUtils.cpp` lines 57-83): skip non-positive capacities; split an
anti-parallel pair (`source < sink` and the input graph has the opposite
edge) through a freshly allocated artificial node; otherwise copy the edge
unchanged. -/
def residualStep (g : Graph) (r : Graph) (source : Int) (e : Edge) : Except Err Graph :=
  if e.capacity ≤ 0 then .ok r
  else if source < e.sink ∧ hasEdge g e.sink source then do
    let w : Int := (r.numNodes : Int)
    let r1 ← addEdge r source w e.capacity e.weight
    addEdge r1 w e.sink e.capacity e.weight
  else addEdge r source e.sink e.capacity e.weight

/-- `GraphUtils::GetResidualGraph` (`GraphUtils.cpp` lines 54-86). -/
def getResidualGraph (g : Graph) : Except Err Graph :=
  (indexedEdges g).foldlM (fun r se => residualStep g r se.1 se.2) (mkGraph g.adj.length)

/-- One iteration of the first loop of `GraphUtils::GetOptimalGraph`
(`GraphUtils.cpp` lines 92-114): keep only negative-cost residual edges; if
the target is an artificial node recover the original source as the sink of
the first edge of the artificial node's adjacency list (`at(0)`), else add
the reversed edge directly. -/
def optimalStep (r : Graph) (opt : Graph) (source : Int) (e : Edge) : Except Err Graph :=
  if 0 ≤ e.weight then .ok opt
  else if (r.startingNumNodes : Int) ≤ e.sink then
    match adjListOf r e.sink with
    | [] => .error .outOfRange
    | e0 :: _ => addEdge opt e0.sink source e.capacity (-e.weight)
  else addEdge opt e.sink source e.capacity (-e.weight)

/-- One iteration of the second loop of `GraphUtils::GetOptimalGraph`
(`GraphUtils.cpp` lines 117-124): every original edge not yet present is
added with flow 0. -/
def optimalFillStep (opt : Graph) (source : Int) (e : Edge) : Except Err Graph :=
  if hasEdge opt source e.sink then .ok opt
  else addEdge opt source e.sink 0 e.weight

/-- `GraphUtils::GetOptimalGraph` (`GraphUtils.cpp` lines 88-127). -/
def getOptimalGraph (r g : Graph) : Except Err Graph := do
  let opt ← (indexedEdgesN r r.startingNumNodes).foldlM
    (fun opt se => optimalStep r opt se.1 se.2) (mkGraph r.startingNumNodes)
  (indexedEdges g).foldlM (fun opt se => optimalFillStep opt se.1 se.2) opt

/-- The walking loop of `GraphUtils::RetrievePath` (`GraphUtils.cpp` lines
136-139): while `tmp` is not the sentinel `-1` and not already collected,
push it and step to `parent.at(tmp)`; on exit return the reverse of the
collected sequence.  The fuel only makes the recursion structural: each
completed iteration pushes a fresh valid index, so `parent.length + 1` steps
always suffice. -/
def rpLoop (parent : List Int) : Nat → List Int → Int → Except Err (List Int)
  | 0, _, _ => .error .fuel
  | k + 1, path, tmp =>
    if tmp ≠ -1 ∧ ¬ path.contains tmp then do
      let t ← atInt parent tmp
      rpLoop parent k (path ++ [tmp]) t
    else .ok path.reverse

/-- `GraphUtils::RetrievePath` (`GraphUtils.cpp` lines 129-142). -/
def retrievePath (parent : List Int) (startNode : Int) : Except Err (List Int) := do
  let t ← atInt parent startNode
  rpLoop parent (parent.length + 1) [startNode] t

/-- `INT_MAX`, the initial accumulator of the bottleneck loop. -/
def intMax : Int := 2 ^ 31 - 1

/-- The minimum-capacity loop of `GraphUtils::GetResidualCapacity`
(`GraphUtils.cpp` lines 153-158), folded over the consecutive pairs of the
path. -/
def minCapAux (g : Graph) : List (Int × Int) → Int → Except Err Int
  | [], acc => .ok acc
  | (s, t) :: rest, acc =>
    match getEdge g s t with
    | some e => minCapAux g rest (min acc e.capacity)
    | none => .error .invalidArgument

/-- `GraphUtils::GetResidualCapacity` (`GraphUtils.cpp` lines 144-161):
paths of fewer than 2 nodes give 0, otherwise the fold of `min` over the
capacities of the consecutive pairs, seeded with `INT_MAX`. -/
def getResidualCapacity (g : Graph) (path : List Int) : Except Err Int :=
  if path.length ≤ 1 then .ok 0
  else minCapAux g (path.zip path.tail) intMax

/-- The new-capacity computation of `GraphUtils::SendFlowInPath`
(`GraphUtils.cpp` lines 170-184): grow by `flow` when the traversed edge
has negative cost, otherwise fail when `flow` exceeds the capacity, else
shrink by `flow`. -/
def sfpCapacity (e : Edge) (flow : Int) : Except Err Int :=
  if e.weight < 0 then .ok (e.capacity + flow)
  else if e.capacity < flow then .error .invalidArgument
  else .ok (e.capacity - flow)

/-- The removal step of `GraphUtils::SendFlowInPath` (`GraphUtils.cpp`
lines 188-191): re-read the edge and delete it when its capacity is 0. -/
def sfpRemove (g1 : Graph) (source sink : Int) : Except Err Graph :=
  match getEdge g1 source sink with
  | none => .error .invalidArgument
  | some e2 => if e2.capacity = 0 then removeEdge g1 source sink else .ok g1

/-- The reverse-edge step of `GraphUtils::SendFlowInPath` (`GraphUtils.cpp`
lines 193-198): create the reverse edge with capacity `flow` and cost
`-weight` when absent, else grow its capacity by `flow`. -/
def sfpReverse (g2 : Graph) (source sink flow weight : Int) : Except Err Graph :=
  if hasEdge g2 sink source = false then addEdge g2 sink source flow (-weight)
  else
    match getEdge g2 sink source with
    | none => .error .invalidArgument
    | some er => setEdgeCapacity g2 sink source (er.capacity + flow)

/-- The body of the loop of `GraphUtils::SendFlowInPath` (`GraphUtils.cpp`
lines 164-199) at index `u`: read the pair `(source, sink)` from the path,
compute the new capacity of the traversed edge, write it, remove the edge
when the capacity reached 0, then update or create the reverse edge. -/
def sfpIter (g : Graph) (path : List Int) (flow : Int) (u : Nat) : Except Err Graph :=
  atNat path u >>= fun source =>
  atNat path (u + 1) >>= fun sink =>
  match getEdge g source sink with
  | none => .error .invalidArgument
  | some e =>
    sfpCapacity e flow >>= fun capacity =>
    setEdgeCapacity g source sink capacity >>= fun g1 =>
    sfpRemove g1 source sink >>= fun g2 =>
    sfpReverse g2 source sink flow e.weight

/-- The loop of `GraphUtils::SendFlowInPath`, running `k` more iterations
starting at index `u`. -/
def sfpLoop (path : List Int) (flow : Int) : Nat → Nat → Graph → Except Err Graph
  | 0, _, g => .ok g
  | k + 1, u, g => do
    let g1 ← sfpIter g path flow u
    sfpLoop path flow k (u + 1) g1

/-- The iteration count of the loop `for (unsigned u = 0; u < path->size()-1;
u++)`: `size() - 1` in 64-bit unsigned arithmetic, which wraps to
`2 ^ 64 - 1` on an empty path. -/
def uIters (path : List Int) : Nat := (path.length + (2 ^ 64 - 1)) % 2 ^ 64

/-- `GraphUtils::SendFlowInPath` (`GraphUtils.cpp` lines 163-200). -/
def sendFlowInPath (g : Graph) (path : List Int) (flow : Int) : Except Err Graph :=
  sfpLoop path flow (uIters path) 0 g

/-- The minimum-cost summation of `MinimumCostFlowAlgorithms::CycleCancelling`
(`MinimumCostFlowAlgorithms.cpp` lines 35-42): over every edge of the final
residual graph with negative cost, accumulate `(-cost) * capacity`. -/
def costSum (g : Graph) : Int :=
  ((indexedEdges g).map
    (fun se => if se.2.weight < 0 then -se.2.weight * se.2.capacity else 0)).sum

/-- Sum over the edges of a flow-assignment graph of `flow * cost`
(capacity holds the flow in `GetOptimalGraph`'s output); this is the
spec-side quantity of the claimed cost equivalence. -/
def flowCostSum (g : Graph) : Int :=
  ((indexedEdges g).map (fun se => se.2.capacity * se.2.weight)).sum

/-- Modelled from the spec: one dequeue step of the breadth-first search of
the Edmonds-Karp engine (its implementation file is absent from the
sources).  Neighbours over positive-capacity edges are discovered in
adjacency order; each discovered node records its parent. -/
def bfsLoop (g : Graph) : Nat → List Int → List Bool → List Int → List Int
  | 0, _, _, par => par
  | _ + 1, [], _, par => par
  | k + 1, u :: qs, vis, par =>
    let step := (adjListOf g u).foldl
      (fun (acc : List Int × List Bool × List Int) e =>
        if 0 < e.capacity ∧ 0 ≤ e.sink ∧ acc.2.1.getD e.sink.toNat true = false then
          (acc.1 ++ [e.sink], acc.2.1.set e.sink.toNat true, acc.2.2.set e.sink.toNat u)
        else acc)
      (qs, vis, par)
    bfsLoop g k step.1 step.2.1 step.2.2

/-- Modelled from the spec: breadth-first search from `source`, returning
the parent array (`-1` for undiscovered nodes and for the source). -/
def bfsRun (g : Graph) (source : Int) : List Int :=
  let n := g.adj.length
  bfsLoop g (n + 1) [source]
    ((List.replicate n false).set source.toNat true)
    (List.replicate n (-1 : Int))

/-- Modelled from the spec: the augmenting loop of
`MaximumFlowAlgorithms::EdmondsKarp` — BFS, stop when the sink is
unreached, otherwise retrieve the path, take its bottleneck, push that flow
and accumulate it. -/
def ekLoop (source sink : Int) : Nat → Graph → Int → Except Err (Graph × Int)
  | 0, _, _ => .error .fuel
  | k + 1, g, f =>
    let par := bfsRun g source
    if par.getD sink.toNat (-1) = -1 then .ok (g, f)
    else do
      let path ← retrievePath par sink
      let bottleneck ← getResidualCapacity g path
      let g1 ← sendFlowInPath g path bottleneck
      ekLoop source sink k g1 (f + bottleneck)

/-- Modelled from the spec: `MaximumFlowAlgorithms::EdmondsKarp` — build the
residual graph, then augment along shortest paths until the sink is
unreachable. -/
def edmondsKarp (g : Graph) (source sink : Int) (budget : Nat) : Except Err (Graph × Int) := do
  let r ← getResidualGraph g
  ekLoop source sink budget r 0

/-- Modelled from the spec: one full relaxation pass of Bellman-Ford over
all edges in node order, updating tentative distances (`none` is infinite)
and parents. -/
def relaxPass (edges : List (Int × Edge)) (dp : List (Option Int) × List Int) :
    List (Option Int) × List Int :=
  edges.foldl
    (fun (dp : List (Option Int) × List Int) se =>
      match dp.1.getD se.1.toNat none with
      | none => dp
      | some du =>
        let cand := du + se.2.weight
        let better :=
          match dp.1.getD se.2.sink.toNat none with
          | none => true
          | some dv => decide (cand < dv)
        if better = true ∧ (0 : Int) ≤ se.2.sink ∧ se.2.sink.toNat < dp.1.length then
          (dp.1.set se.2.sink.toNat (some cand), dp.2.set se.2.sink.toNat se.1)
        else dp)
    dp

/-- Iterate `relaxPass` the given number of rounds. -/
def relaxRounds (edges : List (Int × Edge)) :
    Nat → List (Option Int) × List Int → List (Option Int) × List Int
  | 0, dp => dp
  | k + 1, dp => relaxRounds edges k (relaxPass edges dp)

/-- Modelled from the spec: the extra detection round — the sink of the
first edge that still improves a distance, `none` when no edge improves. -/
def improvingNode (edges : List (Int × Edge)) (dist : List (Option Int)) : Option Int :=
  (edges.find? (fun se =>
    match dist.getD se.1.toNat none with
    | none => false
    | some du =>
      match dist.getD se.2.sink.toNat none with
      | none => true
      | some dv => decide (du + se.2.weight < dv))).map (fun se => se.2.sink)

/-- Result of Bellman-Ford: whether a negative cycle was found and, if so,
the node sequence extracted for it. -/
structure BFResult where
  hasNegativeCycle : Bool
  negativeCycle : List Int
deriving Repr, DecidableEq

/-- Modelled from the spec: `GraphBaseAlgorithms::BellmanFord` — `|V| - 1`
relaxation rounds from `source`, then one detection round; when a distance
still improves, the improved node's parent chain is walked with
`RetrievePath` to extract the negative cycle. -/
def bellmanFord (g : Graph) (source : Int) : Except Err BFResult :=
  let n := g.adj.length
  let dist0 := (List.replicate n (none : Option Int)).set source.toNat (some 0)
  let par0 := List.replicate n (-1 : Int)
  let dp := relaxRounds (indexedEdges g) (n - 1) (dist0, par0)
  match improvingNode (indexedEdges g) dp.1 with
  | none => .ok ⟨false, []⟩
  | some x => do
    let cyc ← retrievePath dp.2 x
    .ok ⟨true, cyc⟩

/-- Modelled from the spec: the negative-cycle cancellation loop of
`MinimumCostFlowAlgorithms::CycleCancelling` — while Bellman-Ford from the
source reports a negative cycle, push the cycle's bottleneck flow around
it. -/
def ccLoop : Nat → Graph → Except Err Graph
  | 0, _ => .error .fuel
  | k + 1, g => do
    let bf ← bellmanFord g 0
    if bf.hasNegativeCycle then do
      let cap ← getResidualCapacity g bf.negativeCycle
      let g1 ← sendFlowInPath g bf.negativeCycle cap
      ccLoop k g1
    else .ok g

/-- `MinimumCostFlowAlgorithms::CycleCancelling`
(`MinimumCostFlowAlgorithms.cpp` lines 10-45): source 0, sink the last node;
Edmonds-Karp for a feasible maximum flow, then cycle cancellation, then the
cost summation over the final residual graph.  (Edmonds-Karp and
Bellman-Ford are modelled from the spec, their implementation files being
absent.) -/
def cycleCancelling (g : Graph) (budget : Nat) : Except Err (Graph × Int) := do
  let ek ← edmondsKarp g 0 ((g.adj.length : Int) - 1) budget
  let r ← ccLoop budget ek.1
  .ok (r, costSum r)

/-- All capacities of the graph are strictly positive (the residual-graph
invariant: absence of an edge, not a zero-capacity edge, means no residual
capacity). -/
def PosCaps (g : Graph) : Prop :=
  ∀ x : Int, ∀ e ∈ adjListOf g x, 0 < e.capacity

/-- `SendFlowInPath`'s loop body instrumented with capacity accounting: the
same steps as `sfpIter`, additionally reporting, for a pair whose traversed
edge has nonnegative cost, the capacity removed from that edge and the
capacity added to its reverse edge (both measured on the actual graphs). -/
def sfpIterAcc (g : Graph) (path : List Int) (flow : Int) (u : Nat) :
    Except Err (Graph × Int × Int) :=
  atNat path u >>= fun source =>
  atNat path (u + 1) >>= fun sink =>
  match getEdge g source sink with
  | none => .error .invalidArgument
  | some e =>
    sfpCapacity e flow >>= fun capacity =>
    setEdgeCapacity g source sink capacity >>= fun g1 =>
    sfpRemove g1 source sink >>= fun g2 =>
    sfpReverse g2 source sink flow e.weight >>= fun g3 =>
    .ok (g3,
      (if 0 ≤ e.weight then capOf g source sink - capOf g2 source sink else 0),
      (if 0 ≤ e.weight then capOf g3 sink source - capOf g2 sink source else 0))

/-- The instrumented loop of `SendFlowInPath`, accumulating the total
capacity removed from forward edges and the total added to their reverse
edges. -/
def sfpLoopAcc (path : List Int) (flow : Int) :
    Nat → Nat → Graph → Int → Int → Except Err (Graph × Int × Int)
  | 0, _, g, rem, add => .ok (g, rem, add)
  | k + 1, u, g, rem, add => do
    let x ← sfpIterAcc g path flow u
    sfpLoopAcc path flow k (u + 1) x.1 (rem + x.2.1) (add + x.2.2)

/-- `SendFlowInPath` with capacity accounting over the whole path. -/
def sendFlowAccounting (g : Graph) (path : List Int) (flow : Int) :
    Except Err (Graph × Int × Int) :=
  sfpLoopAcc path flow (uIters path) 0 g 0 0

/-- Example: 2 nodes with the anti-parallel pair `0→1 (cap 2, cost 1)`,
`1→0 (cap 2, cost 1)`. -/
def exG2 : Graph := ⟨2, [[⟨0, 1, 2, 1⟩], [⟨1, 0, 2, 1⟩]], []⟩

/-- The residual graph of `exG2`: the pair is split through artificial
node 2. -/
def exR2 : Graph := ⟨2, [[⟨0, 2, 2, 1⟩], [⟨1, 0, 2, 1⟩], [⟨2, 1, 2, 1⟩]], []⟩

/-- The graph `exR2` after one intermediate augmentation step (the pair
`(0, 2)` of the path `0→2→1` with flow 2). -/
def exMid2 : Graph := ⟨2, [[], [⟨1, 0, 2, 1⟩], [⟨2, 1, 2, 1⟩, ⟨2, 0, 2, -1⟩]], []⟩

/-- The final residual graph of the cycle-cancelling run on `exG2`. -/
def exR2fin : Graph := ⟨2, [[], [⟨1, 0, 2, 1⟩, ⟨1, 2, 2, -1⟩], [⟨2, 0, 2, -1⟩]], []⟩

/-- The optimal (flow-assignment) graph extracted from `exR2fin` and
`exG2`. -/
def exOpt2 : Graph := ⟨2, [[⟨0, 1, 2, 1⟩], [⟨1, 0, 0, 1⟩]], []⟩

/-- The end-to-end example of the spec: 4 nodes, `0→1 (2,1)`, `0→2 (1,2)`,
`1→3 (1,2)`, `2→3 (2,1)`; expected maximum flow 2 and minimum cost 6. -/
def exG4 : Graph := ⟨4, [[⟨0, 1, 2, 1⟩, ⟨0, 2, 1, 2⟩], [⟨1, 3, 1, 2⟩], [⟨2, 3, 2, 1⟩], []], []⟩

/-- The final residual graph of the cycle-cancelling run on `exG4`. -/
def exR4fin : Graph :=
  ⟨4, [[⟨0, 1, 1, 1⟩], [⟨1, 0, 1, -1⟩], [⟨2, 3, 1, 1⟩, ⟨2, 0, 1, -2⟩],
    [⟨3, 1, 1, -2⟩, ⟨3, 2, 1, -1⟩]], []⟩

theorem getD_set_self {α : Type} (l : List α) (i : Nat) (a d : α) (h : i < l.length) :
    (l.set i a).getD i d = a := by
  simp [List.getD_eq_getElem?_getD, List.getElem?_set_self, h]

theorem getD_set_ne {α : Type} (l : List α) {i j : Nat} (a d : α) (h : i ≠ j) :
    (l.set i a).getD j d = l.getD j d := by
  simp [List.getD_eq_getElem?_getD, List.getElem?_set_ne, h]

theorem getD_append_replicate_nil {α : Type} (l : List (List α)) (k i : Nat) :
    (l ++ List.replicate k ([] : List α)).getD i [] = l.getD i [] := by
  rcases Nat.lt_or_ge i l.length with h | h
  · simp [List.getD_eq_getElem?_getD, List.getElem?_append_left, h]
  · have h1 : l.getD i [] = [] := by
      simp [List.getD_eq_getElem?_getD, List.getElem?_eq_none h]
    rw [h1, List.getD_eq_getElem?_getD, List.getElem?_append_right h]
    rcases Nat.lt_or_ge (i - l.length) k with hk | hk
    · simp [List.getElem?_replicate, hk]
    · simp [List.getElem?_eq_none
        (show (List.replicate k ([] : List α)).length ≤ i - l.length by simpa using hk)]

theorem getD_mem_of_lt {α : Type} (l : List (List α)) (i : Nat) (h : i < l.length) :
    l.getD i [] ∈ l := by
  have hm := List.getElem_mem (l := l) (n := i) h
  rw [List.getD_eq_getElem?_getD, List.getElem?_eq_getElem h]
  exact hm

theorem toNat_inj_of_nonneg {x y : Int} (hx : 0 ≤ x) (hy : 0 ≤ y) (h : x.toNat = y.toNat) :
    x = y := by
  omega

theorem hasEdge_bounds {g : Graph} {s t : Int} (h : hasEdge g s t = true) :
    0 ≤ s ∧ s.toNat < g.adj.length := by
  by_contra hc
  push_neg at hc
  unfold hasEdge adjListOf at h
  rcases le_or_lt 0 s with hs | hs
  · have hlen : g.adj.length ≤ s.toNat := hc hs
    rw [if_pos hs, List.getD_eq_getElem?_getD, List.getElem?_eq_none hlen] at h
    simp at h
  · rw [if_neg (by omega)] at h
    simp at h

theorem adjListOf_mem_adj {g : Graph} {x : Int} (h : adjListOf g x ≠ []) :
    adjListOf g x ∈ g.adj := by
  unfold adjListOf at h ⊢
  by_cases hx : 0 ≤ x
  · rw [if_pos hx] at h ⊢
    rcases Nat.lt_or_ge x.toNat g.adj.length with hlt | hge
    · exact getD_mem_of_lt _ _ hlt
    · rw [List.getD_eq_getElem?_getD, List.getElem?_eq_none hge] at h
      simp at h
  · rw [if_neg hx] at h
    simp at h

theorem getEdge_eq_some {g : Graph} {s t : Int} {e : Edge} (h : getEdge g s t = some e) :
    e ∈ adjListOf g s ∧ e.sink = t := by
  unfold getEdge at h
  refine ⟨List.mem_of_find?_eq_some h, ?_⟩
  have := List.find?_some h
  simpa using this

theorem hasEdge_iff_getEdge {g : Graph} {s t : Int} :
    hasEdge g s t = true ↔ ∃ e, getEdge g s t = some e := by
  unfold hasEdge getEdge
  rw [List.any_eq_true]
  constructor
  · rintro ⟨e, he, hp⟩
    have : ((adjListOf g s).find? (fun e => decide (e.sink = t))).isSome := by
      rw [List.find?_isSome]
      exact ⟨e, he, hp⟩
    rcases Option.isSome_iff_exists.mp this with ⟨e2, he2⟩
    exact ⟨e2, he2⟩
  · rintro ⟨e, he⟩
    have h1 := List.mem_of_find?_eq_some he
    have h2 := List.find?_some he
    exact ⟨e, h1, h2⟩

theorem hasEdge_false_find? {g : Graph} {s t : Int} (h : hasEdge g s t = false) :
    (adjListOf g s).find? (fun e => decide (e.sink = t)) = none := by
  by_contra hc
  rcases Option.ne_none_iff_exists.mp (by exact fun hn => hc hn) with ⟨e, he⟩
  have : hasEdge g s t = true := hasEdge_iff_getEdge.mpr ⟨e, he.symm⟩
  rw [h] at this
  exact Bool.false_ne_true this

theorem hasEdge_of_mem {g : Graph} {x : Int} {e : Edge} (he : e ∈ adjListOf g x) :
    hasEdge g x e.sink = true := by
  unfold hasEdge
  rw [List.any_eq_true]
  exact ⟨e, he, by simp⟩

theorem addEdge_ok_elim {g g2 : Graph} {s t cap w : Int}
    (h : addEdge g s t cap w = .ok g2) :
    0 ≤ s ∧ 0 ≤ t ∧ s ≤ (g.adj.length : Int) ∧ t ≤ (g.adj.length : Int) ∧
    hasEdge g s t = false ∧ 0 ≤ cap ∧
    g2.startingNumNodes = g.startingNumNodes ∧
    g2.artificialNodes = g.artificialNodes ∧
    g2.adj.length = max g.adj.length (max (s.toNat + 1) (t.toNat + 1)) ∧
    adjListOf g2 s = adjListOf g s ++ [⟨s, t, cap, w⟩] ∧
    (∀ x : Int, x ≠ s → adjListOf g2 x = adjListOf g x) := by
  unfold addEdge at h
  split_ifs at h with h1 h2 h3 h4
  rw [Except.ok.injEq] at h
  subst h
  push_neg at h1 h2
  have hs0 : 0 ≤ s := h1.1
  have ht0 : 0 ≤ t := h1.2
  have hsl : s ≤ (g.adj.length : Int) := h2.1
  have htl : t ≤ (g.adj.length : Int) := h2.2
  have h3b : hasEdge g s t = false := by
    revert h3; cases hasEdge g s t <;> simp
  have h4b : 0 ≤ cap := by omega
  set n := max g.adj.length (max (s.toNat + 1) (t.toNat + 1)) with hn
  have hlen : (g.adj ++ List.replicate (n - g.adj.length) ([] : List Edge)).length = n := by
    simp only [List.length_append, List.length_replicate]
    omega
  have hsn : s.toNat < n := by
    have : s.toNat + 1 ≤ n := le_trans (le_max_left _ _) (le_max_right _ _)
    omega
  refine ⟨hs0, ht0, hsl, htl, h3b, h4b, rfl, rfl, by simp [List.length_set, hlen], ?_, ?_⟩
  · show adjListOf _ s = _
    unfold adjListOf
    rw [if_pos hs0, if_pos hs0]
    simp only
    rw [getD_set_self _ _ _ _ (by rw [hlen]; exact hsn)]
    rw [getD_append_replicate_nil]
  · intro x hx
    unfold adjListOf
    by_cases hx0 : 0 ≤ x
    · rw [if_pos hx0, if_pos hx0]
      simp only
      have hxs : s.toNat ≠ x.toNat := fun hc => hx (toNat_inj_of_nonneg hs0 hx0 hc).symm
      rw [getD_set_ne _ _ _ hxs, getD_append_replicate_nil]
    · rw [if_neg hx0, if_neg hx0]

theorem addEdge_ok_intro {g : Graph} {s t cap w : Int}
    (h0 : 0 ≤ s) (h1 : 0 ≤ t) (h2 : s ≤ (g.adj.length : Int)) (h3 : t ≤ (g.adj.length : Int))
    (h4 : hasEdge g s t = false) (h5 : 0 ≤ cap) :
    ∃ g2, addEdge g s t cap w = .ok g2 := by
  unfold addEdge
  rw [if_neg (by omega), if_neg (by omega), if_neg (by simp [h4]), if_neg (by omega)]
  exact ⟨_, rfl⟩

theorem addEdge_hasEdge {g g2 : Graph} {s t cap w : Int} (h : addEdge g s t cap w = .ok g2)
    (a b : Int) :
    hasEdge g2 a b = true ↔ (hasEdge g a b = true ∨ (a = s ∧ b = t)) := by
  obtain ⟨_, _, _, _, _, _, _, _, _, hself, hother⟩ := addEdge_ok_elim h
  by_cases has : a = s
  · unfold hasEdge
    rw [has, hself, List.any_append]
    simp only [List.any_cons, List.any_nil, Bool.or_false, Bool.or_eq_true, decide_eq_true_eq]
    constructor
    · rintro (hl | hr)
      · exact Or.inl hl
      · refine Or.inr ⟨?_, hr.symm⟩
        trivial
    · rintro (hl | ⟨_, hb⟩)
      · exact Or.inl hl
      · exact Or.inr hb.symm
  · rw [show hasEdge g2 a b = hasEdge g a b by unfold hasEdge; rw [hother a has]]
    constructor
    · exact fun hh => Or.inl hh
    · rintro (hh | ⟨rfl, _⟩)
      · exact hh
      · exact absurd rfl has

theorem addEdge_getEdge_self {g g2 : Graph} {s t cap w : Int}
    (h : addEdge g s t cap w = .ok g2) :
    getEdge g2 s t = some ⟨s, t, cap, w⟩ := by
  obtain ⟨_, _, _, _, hfalse, _, _, _, _, hself, _⟩ := addEdge_ok_elim h
  unfold getEdge
  rw [hself, List.find?_append, hasEdge_false_find? hfalse]
  simp

theorem addEdge_getEdge_other {g g2 : Graph} {s t cap w : Int}
    (h : addEdge g s t cap w = .ok g2) (a b : Int) (hne : ¬(a = s ∧ b = t)) :
    getEdge g2 a b = getEdge g a b := by
  obtain ⟨_, _, _, _, _, _, _, _, _, hself, hother⟩ := addEdge_ok_elim h
  by_cases has : a = s
  · have hbt : b ≠ t := fun hc => hne ⟨has, hc⟩
    unfold getEdge
    rw [has, hself, List.find?_append]
    have hnone : List.find? (fun e => decide (e.sink = b)) [(⟨s, t, cap, w⟩ : Edge)] = none := by
      have hbt2 : t ≠ b := Ne.symm hbt
      simp [List.find?, hbt2]
    rw [hnone]
    cases List.find? (fun e => decide (e.sink = b)) (adjListOf g s) <;> rfl
  · unfold getEdge
    rw [hother a has]

theorem setEdgeCapacity_ok_elim {g g2 : Graph} {s t c : Int}
    (h : setEdgeCapacity g s t c = .ok g2) :
    hasEdge g s t = true ∧ 0 ≤ c ∧
    g2.startingNumNodes = g.startingNumNodes ∧
    g2.artificialNodes = g.artificialNodes ∧
    g2.adj.length = g.adj.length ∧
    adjListOf g2 s =
      (adjListOf g s).map (fun e => if e.sink = t then { e with capacity := c } else e) ∧
    (∀ x : Int, x ≠ s → adjListOf g2 x = adjListOf g x) := by
  unfold setEdgeCapacity at h
  split_ifs at h with h1 h2
  rw [Except.ok.injEq] at h
  subst h
  have htrue : hasEdge g s t = true := by
    revert h1; cases hasEdge g s t <;> simp
  obtain ⟨hs0, hsl⟩ := hasEdge_bounds htrue
  refine ⟨htrue, by omega, rfl, rfl, by simp [List.length_set], ?_, ?_⟩
  · show adjListOf _ s = _
    unfold adjListOf
    rw [if_pos hs0, if_pos hs0]
    simp only
    rw [getD_set_self _ _ _ _ hsl]
  · intro x hx
    unfold adjListOf
    by_cases hx0 : 0 ≤ x
    · rw [if_pos hx0, if_pos hx0]
      simp only
      have hxs : s.toNat ≠ x.toNat := fun hc => hx (toNat_inj_of_nonneg hs0 hx0 hc).symm
      rw [getD_set_ne _ _ _ hxs]
    · rw [if_neg hx0, if_neg hx0]

theorem setEdgeCapacity_ok_intro {g : Graph} {s t c : Int}
    (h1 : hasEdge g s t = true) (h2 : 0 ≤ c) :
    ∃ g2, setEdgeCapacity g s t c = .ok g2 := by
  unfold setEdgeCapacity
  rw [if_neg (by simp [h1]), if_neg (by omega)]
  exact ⟨_, rfl⟩

theorem setEdgeCapacity_hasEdge {g g2 : Graph} {s t c : Int}
    (h : setEdgeCapacity g s t c = .ok g2) (a b : Int) :
    hasEdge g2 a b = hasEdge g a b := by
  obtain ⟨_, _, _, _, _, hself, hother⟩ := setEdgeCapacity_ok_elim h
  by_cases has : a = s
  · unfold hasEdge
    rw [has, hself, List.any_map]
    congr 1
    funext e
    by_cases hst : e.sink = t <;> simp [hst]
  · unfold hasEdge
    rw [hother a has]

theorem setEdgeCapacity_getEdge_self {g g2 : Graph} {s t c : Int}
    (h : setEdgeCapacity g s t c = .ok g2) {e : Edge} (he : getEdge g s t = some e) :
    getEdge g2 s t = some { e with capacity := c } := by
  obtain ⟨_, _, _, _, _, hself, _⟩ := setEdgeCapacity_ok_elim h
  unfold getEdge
  rw [hself, List.find?_map]
  have hpred : (fun e2 => decide (e2.sink = t)) ∘
      (fun e2 : Edge => if e2.sink = t then { e2 with capacity := c } else e2) =
      (fun e2 : Edge => decide (e2.sink = t)) := by
    funext e2
    by_cases hst : e2.sink = t <;> simp [Function.comp, hst]
  rw [hpred]
  unfold getEdge at he
  rw [he]
  have hst : e.sink = t := by
    have := List.find?_some he
    simpa using this
  simp [Option.map_some, hst]

theorem setEdgeCapacity_getEdge_other {g g2 : Graph} {s t c : Int}
    (h : setEdgeCapacity g s t c = .ok g2) (a b : Int) (hne : ¬(a = s ∧ b = t)) :
    getEdge g2 a b = getEdge g a b := by
  obtain ⟨_, _, _, _, _, hself, hother⟩ := setEdgeCapacity_ok_elim h
  by_cases has : a = s
  · have hbt : b ≠ t := fun hc => hne ⟨has, hc⟩
    unfold getEdge
    rw [has, hself, List.find?_map]
    have hpred : (fun e2 => decide (e2.sink = b)) ∘
        (fun e2 : Edge => if e2.sink = t then { e2 with capacity := c } else e2) =
        (fun e2 : Edge => decide (e2.sink = b)) := by
      funext e2
      by_cases hst : e2.sink = t <;> simp [Function.comp, hst, hbt]
    rw [hpred]
    cases hfind : List.find? (fun e2 : Edge => decide (e2.sink = b)) (adjListOf g s) with
    | none => rfl
    | some e2 =>
      have hsb : e2.sink = b := by
        have := List.find?_some hfind
        simpa using this
      have hsnt : ¬ e2.sink = t := by
        rw [hsb]
        exact hbt
      simp [Option.map_some, hsnt]
  · unfold getEdge
    rw [hother a has]

theorem removeEdge_ok_elim {g g2 : Graph} {s t : Int}
    (h : removeEdge g s t = .ok g2) :
    hasEdge g s t = true ∧
    g2.startingNumNodes = g.startingNumNodes ∧
    g2.artificialNodes = g.artificialNodes ∧
    g2.adj.length = g.adj.length ∧
    adjListOf g2 s = (adjListOf g s).filter (fun e => ¬ e.sink = t) ∧
    (∀ x : Int, x ≠ s → adjListOf g2 x = adjListOf g x) := by
  unfold removeEdge at h
  split_ifs at h with h1
  rw [Except.ok.injEq] at h
  subst h
  have htrue : hasEdge g s t = true := by
    revert h1; cases hasEdge g s t <;> simp
  obtain ⟨hs0, hsl⟩ := hasEdge_bounds htrue
  refine ⟨htrue, rfl, rfl, by simp [List.length_set], ?_, ?_⟩
  · show adjListOf _ s = _
    unfold adjListOf
    rw [if_pos hs0, if_pos hs0]
    simp only
    rw [getD_set_self _ _ _ _ hsl]
  · intro x hx
    unfold adjListOf
    by_cases hx0 : 0 ≤ x
    · rw [if_pos hx0, if_pos hx0]
      simp only
      have hxs : s.toNat ≠ x.toNat := fun hc => hx (toNat_inj_of_nonneg hs0 hx0 hc).symm
      rw [getD_set_ne _ _ _ hxs]
    · rw [if_neg hx0, if_neg hx0]

theorem removeEdge_ok_intro {g : Graph} {s t : Int} (h1 : hasEdge g s t = true) :
    ∃ g2, removeEdge g s t = .ok g2 := by
  unfold removeEdge
  rw [if_neg (by simp [h1])]
  exact ⟨_, rfl⟩

theorem removeEdge_hasEdge_self {g g2 : Graph} {s t : Int}
    (h : removeEdge g s t = .ok g2) :
    hasEdge g2 s t = false := by
  obtain ⟨_, _, _, _, hself, _⟩ := removeEdge_ok_elim h
  unfold hasEdge
  rw [hself]
  rw [Bool.eq_false_iff]
  intro hc
  rw [List.any_eq_true] at hc
  obtain ⟨e, he, hp⟩ := hc
  rw [List.mem_filter] at he
  have h1 : ¬ e.sink = t := by simpa using he.2
  have h2 : e.sink = t := by simpa using hp
  exact h1 h2

theorem removeEdge_hasEdge_other {g g2 : Graph} {s t : Int}
    (h : removeEdge g s t = .ok g2) (a b : Int) (hne : ¬(a = s ∧ b = t)) :
    hasEdge g2 a b = hasEdge g a b := by
  obtain ⟨_, _, _, _, hself, hother⟩ := removeEdge_ok_elim h
  by_cases has : a = s
  · have hbt : b ≠ t := fun hc => hne ⟨has, hc⟩
    unfold hasEdge
    rw [has, hself]
    rcases hae : (adjListOf g s).any (fun e => decide (e.sink = b)) with _ | _
    · rw [Bool.eq_false_iff]
      intro hc
      rw [List.any_eq_true] at hc
      obtain ⟨e, he, hp⟩ := hc
      rw [List.mem_filter] at he
      rw [Bool.eq_false_iff] at hae
      exact hae (List.any_eq_true.mpr ⟨e, he.1, hp⟩)
    · rw [List.any_eq_true] at hae
      obtain ⟨e, he, hp⟩ := hae
      have hsb : e.sink = b := by simpa using hp
      rw [List.any_eq_true]
      refine ⟨e, ?_, hp⟩
      rw [List.mem_filter]
      refine ⟨he, ?_⟩
      simp [hsb, hbt]
  · unfold hasEdge
    rw [hother a has]

theorem find?_filter_ne {l : List Edge} {t b : Int} (hbt : b ≠ t) :
    (l.filter (fun e => ¬ e.sink = t)).find? (fun e => decide (e.sink = b)) =
      l.find? (fun e => decide (e.sink = b)) := by
  induction l with
  | nil => rfl
  | cons e l ih =>
    rw [List.filter_cons]
    by_cases hst : e.sink = t
    · rw [if_neg (by simp [hst])]
      rw [ih, List.find?_cons]
      have hsb : ¬ e.sink = b := by rw [hst]; exact Ne.symm hbt
      have hd : decide (e.sink = b) = false := by simp [hsb]
      simp [hd]
    · rw [if_pos (by simp [hst])]
      rw [List.find?_cons, List.find?_cons]
      by_cases hsb : e.sink = b
      · have hd : decide (e.sink = b) = true := by simp [hsb]
        simp [hd]
      · have hd : decide (e.sink = b) = false := by simp [hsb]
        simp only [hd]
        exact ih

theorem removeEdge_getEdge_other {g g2 : Graph} {s t : Int}
    (h : removeEdge g s t = .ok g2) (a b : Int) (hne : ¬(a = s ∧ b = t)) :
    getEdge g2 a b = getEdge g a b := by
  obtain ⟨_, _, _, _, hself, hother⟩ := removeEdge_ok_elim h
  by_cases has : a = s
  · have hbt : b ≠ t := fun hc => hne ⟨has, hc⟩
    unfold getEdge
    rw [has, hself]
    exact find?_filter_ne hbt
  · unfold getEdge
    rw [hother a has]

theorem except_bind_ok {α β : Type} {x : Except Err α} {f : α → Except Err β} {b : β}
    (h : (x >>= f) = .ok b) : ∃ a, x = .ok a ∧ f a = .ok b := by
  cases x with
  | ok a => exact ⟨a, rfl, h⟩
  | error e =>
    have : (Except.error e : Except Err α) >>= f = .error e := rfl
    rw [this] at h
    cases h

theorem foldlM_invariant {α : Type} (f : Graph → α → Except Err Graph) (P : Graph → Prop) :
    ∀ (l : List α), (∀ x ∈ l, ∀ b b2, f b x = .ok b2 → P b → P b2) →
    ∀ b res, l.foldlM f b = .ok res → P b → P res := by
  intro l
  induction l with
  | nil =>
    intro _ b res hfold hP
    rw [List.foldlM_nil] at hfold
    cases hfold
    exact hP
  | cons x l ih =>
    intro hstep b res hfold hP
    rw [List.foldlM_cons] at hfold
    obtain ⟨b1, hb1, hrest⟩ := except_bind_ok hfold
    exact ih (fun y hy => hstep y (List.mem_cons_of_mem x hy)) b1 res hrest
      (hstep x (List.mem_cons_self x l) b b1 hb1 hP)

theorem foldlM_reach {α : Type} [DecidableEq α] (f : Graph → α → Except Err Graph)
    (P : Graph → Prop) :
    ∀ (l : List α), (∀ x ∈ l, ∀ b b2, f b x = .ok b2 → P b → P b2) →
    ∀ b res x, l.foldlM f b = .ok res → P b → x ∈ l →
      ∃ b1 b2, ∃ l2 : List α, P b1 ∧ f b1 x = .ok b2 ∧ l2.foldlM f b2 = .ok res := by
  intro l
  induction l with
  | nil =>
    intro _ _ _ _ _ _ hmem
    cases hmem
  | cons y l ih =>
    intro hstep b res x hfold hP hmem
    rw [List.foldlM_cons] at hfold
    obtain ⟨b1, hb1, hrest⟩ := except_bind_ok hfold
    rcases List.mem_cons.mp hmem with hxy | hxl
    · subst hxy
      exact ⟨b, b1, l, hP, hb1, hrest⟩
    · exact ih (fun z hz => hstep z (List.mem_cons_of_mem y hz)) b1 res x hrest
        (hstep y (List.mem_cons_self y l) b b1 hb1 hP) hxl

theorem posCaps_of_adj {g : Graph} (h : ∀ l ∈ g.adj, ∀ e ∈ l, 0 < e.capacity) :
    PosCaps g := by
  intro x e he
  have hne : adjListOf g x ≠ [] := by
    intro hc
    rw [hc] at he
    cases he
  exact h _ (adjListOf_mem_adj hne) e he

theorem posCaps_mkGraph (n : Nat) : PosCaps (mkGraph n) := by
  apply posCaps_of_adj
  intro l hl e he
  unfold mkGraph at hl
  simp only at hl
  rw [List.eq_of_mem_replicate hl] at he
  cases he

theorem addEdge_posCaps {g g2 : Graph} {s t cap w : Int} (h : addEdge g s t cap w = .ok g2)
    (hpos : PosCaps g) (hcap : 0 < cap) : PosCaps g2 := by
  obtain ⟨_, _, _, _, _, _, _, _, _, hself, hother⟩ := addEdge_ok_elim h
  intro x e he
  by_cases hx : x = s
  · rw [hx, hself] at he
    rcases List.mem_append.mp he with hm | hm
    · exact hpos s e hm
    · rw [List.mem_singleton] at hm
      rw [hm]
      exact hcap
  · rw [hother x hx] at he
    exact hpos x e he

theorem mkGraph_hasEdge (n : Nat) (a b : Int) : hasEdge (mkGraph n) a b = false := by
  unfold hasEdge adjListOf mkGraph
  by_cases ha : 0 ≤ a
  · rw [if_pos ha]
    simp only
    rcases Nat.lt_or_ge a.toNat n with hlt | hge
    · rw [List.getD_eq_getElem?_getD, List.getElem?_replicate, if_pos hlt]
      rfl
    · rw [List.getD_eq_getElem?_getD, List.getElem?_eq_none (by simpa using hge)]
      rfl
  · rw [if_neg ha]
    rfl

theorem sfpIter_nil (g : Graph) (flow : Int) (u : Nat) :
    sfpIter g [] flow u = .error .outOfRange := rfl

theorem sfpLoop_succ (path : List Int) (flow : Int) (k u : Nat) (g : Graph) :
    sfpLoop path flow (k + 1) u g =
      (sfpIter g path flow u) >>= fun g1 => sfpLoop path flow k (u + 1) g1 := rfl

/-- C10: SendFlowInPath requires at least one path node — on an empty path
the unsigned loop bound `size() - 1` wraps around, so the first iteration
performs an out-of-range access instead of returning without effect; on a
single-node path the loop runs zero iterations and the graph is returned
unchanged; GetResidualCapacity guards both cases and returns 0. -/
theorem c10_sendFlow_path_guard :
    (∀ (g : Graph) (flow : Int), sendFlowInPath g [] flow = .error .outOfRange) ∧
    (∀ (g : Graph) (x flow : Int), sendFlowInPath g [x] flow = .ok g) ∧
    (∀ (g : Graph) (x : Int),
      getResidualCapacity g [] = .ok 0 ∧ getResidualCapacity g [x] = .ok 0) := by
  refine ⟨?_, ?_, ?_⟩
  · intro g flow
    unfold sendFlowInPath
    rw [show uIters ([] : List Int) = (2 ^ 64 - 2) + 1 by norm_num [uIters]]
    rw [sfpLoop_succ, sfpIter_nil]
    rfl
  · intro g x flow
    unfold sendFlowInPath
    rw [show uIters [x] = 0 by norm_num [uIters]]
    rfl
  · intro g x
    constructor <;> rfl

theorem foldl_min_left (a b : Int) : ∀ l : List Int, l.foldl min (min a b) = min a (l.foldl min b) := by
  intro l
  induction l generalizing b with
  | nil => rfl
  | cons c l ih =>
    simp only [List.foldl_cons]
    rw [min_assoc, ih]

theorem min?_cons_foldl (a : Int) : ∀ l : List Int, (a :: l).min? = some (l.foldl min a) := by
  intro l
  induction l generalizing a with
  | nil => rfl
  | cons b l ih =>
    rw [List.min?_cons, ih b]
    simp only [Option.elim_some, List.foldl_cons]
    rw [foldl_min_left]

theorem minCapAux_foldl (g : Graph) :
    ∀ (pairs : List (Int × Int)) (acc : Int),
    (∀ p ∈ pairs, ∃ e, getEdge g p.1 p.2 = some e) →
    minCapAux g pairs acc = .ok ((pairs.map (fun p => capOf g p.1 p.2)).foldl min acc) := by
  intro pairs
  induction pairs with
  | nil => intro acc _; rfl
  | cons p rest ih =>
    intro acc hall
    obtain ⟨s, t⟩ := p
    obtain ⟨e, he⟩ := hall (s, t) (List.mem_cons_self ..)
    have hcap : capOf g s t = e.capacity := by
      unfold capOf
      rw [he]
    simp only [minCapAux, he, List.map_cons, List.foldl_cons, hcap]
    exact ih (min acc e.capacity) (fun q hq => hall q (List.mem_cons_of_mem _ hq))

/-- C9: GetResidualCapacity returns 0 on paths with fewer than 2 nodes; on a
longer path whose consecutive pairs all have residual edges (with the
`int`-typed capacities bounded by `INT_MAX`), it returns the minimum
residual capacity over the consecutive pairs. -/
theorem c9_bottleneck_min :
    (∀ (g : Graph) (path : List Int), path.length ≤ 1 → getResidualCapacity g path = .ok 0) ∧
    (∀ (g : Graph) (path : List Int), 2 ≤ path.length →
      (∀ p ∈ path.zip path.tail, ∃ e, getEdge g p.1 p.2 = some e ∧ e.capacity ≤ intMax) →
      getResidualCapacity g path =
        .ok ((((path.zip path.tail).map (fun p => capOf g p.1 p.2)).min?).getD 0)) := by
  constructor
  · intro g path hlen
    unfold getResidualCapacity
    rw [if_pos hlen]
  · intro g path hlen hall
    unfold getResidualCapacity
    rw [if_neg (by omega)]
    obtain ⟨a, path2, rfl⟩ : ∃ a path2, path = a :: path2 := by
      cases path with
      | nil => simp at hlen
      | cons a path2 => exact ⟨a, path2, rfl⟩
    obtain ⟨b, path3, rfl⟩ : ∃ b path3, path2 = b :: path3 := by
      cases path2 with
      | nil => simp at hlen
      | cons b path3 => exact ⟨b, path3, rfl⟩
    have hzip : (a :: b :: path3).zip (a :: b :: path3).tail =
        (a, b) :: ((b :: path3).zip path3) := rfl
    rw [hzip] at hall ⊢
    rw [minCapAux_foldl g _ intMax (fun q hq => by
      obtain ⟨e, he, _⟩ := hall q hq
      exact ⟨e, he⟩)]
    obtain ⟨e0, he0, hb0⟩ := hall (a, b) (List.mem_cons_self ..)
    have hcap0 : capOf g a b = e0.capacity := by
      unfold capOf
      rw [he0]
    simp only [List.map_cons, List.foldl_cons]
    rw [min?_cons_foldl]
    simp only [Option.getD_some]
    have hmin : min intMax (capOf g a b) = capOf g a b := by
      rw [hcap0]
      exact min_eq_right hb0
    rw [hmin]

/-- Witness for C9 at the path `0→2→1` of the residual graph `exR2`. -/
theorem c9_witness :
    getResidualCapacity exR2 ([] : List Int) = .ok 0 ∧
    getResidualCapacity exR2 [0, 2, 1] = .ok 2 := by
  constructor
  · exact c9_bottleneck_min.1 exR2 [] (by decide)
  · have hall : ∀ p ∈ ([0, 2, 1] : List Int).zip ([0, 2, 1] : List Int).tail,
        ∃ e, getEdge exR2 p.1 p.2 = some e ∧ e.capacity ≤ intMax := by
      intro p hp
      fin_cases hp
      · exact ⟨⟨0, 2, 2, 1⟩, by decide, by decide⟩
      · exact ⟨⟨2, 1, 2, 1⟩, by decide, by decide⟩
    have h := c9_bottleneck_min.2 exR2 [0, 2, 1] (by decide) hall
    rw [h]
    rfl

theorem rpLoop_ok {parent : List Int} :
    ∀ (fuel : Nat) (path : List Int) (tmp : Int) (res : List Int),
    rpLoop parent fuel path tmp = .ok res →
    path ≠ [] → path.Nodup →
    path.Chain' (fun x y => atInt parent x = .ok y) →
    (∀ z, path.getLast? = some z → atInt parent z = .ok tmp) →
    res.Nodup ∧ res.getLast? = path.head? ∧
      res.Chain' (fun a b => atInt parent b = .ok a) := by
  intro fuel
  induction fuel with
  | zero =>
    intro path tmp res h
    cases h
  | succ k ih =>
    intro path tmp res h hne hnd hch hlast
    rw [rpLoop] at h
    by_cases hc : tmp ≠ -1 ∧ ¬ path.contains tmp
    · rw [if_pos hc] at h
      obtain ⟨t, ht, hrec⟩ := except_bind_ok h
      have hmem : tmp ∉ path := by
        intro hm
        exact hc.2 (by simpa using hm)
      have hres := ih (path ++ [tmp]) t res hrec (by simp) ?_ ?_ ?_
      · obtain ⟨h1, h2, h3⟩ := hres
        refine ⟨h1, ?_, h3⟩
        rw [h2]
        cases path with
        | nil => exact absurd rfl hne
        | cons a l => rfl
      · rw [List.nodup_append]
        exact ⟨hnd, List.nodup_singleton tmp, by simpa using hmem⟩
      · rw [List.chain'_append]
        refine ⟨hch, List.chain'_singleton tmp, ?_⟩
        intro x hx y hy
        rw [List.head?_cons, Option.mem_def, Option.some.injEq] at hy
        rw [← hy]
        exact hlast x (Option.mem_def.mp hx)
      · intro z hz
        have hzl : (path ++ [tmp]).getLast? = some tmp := by simp
        rw [hzl, Option.some.injEq] at hz
        rw [← hz]
        exact ht
    · rw [if_neg hc] at h
      rw [Except.ok.injEq] at h
      subst h
      refine ⟨by rw [List.nodup_reverse]; exact hnd, List.getLast?_reverse path, ?_⟩
      rw [List.chain'_reverse]
      exact hch

/-- Counterexample for C3: with the parent map `parent[0] = 1`,
`parent[1] = 2`, `parent[2] = 0` and start node 0 the walk closes a cycle,
but the returned sequence `[2, 1, 0]` does not repeat its first node at the
end. -/
theorem c3_counterexample :
    retrievePath [1, 2, 0] 0 = .ok [2, 1, 0] ∧
    ([2, 1, 0] : List Int).getLast? ≠ ([2, 1, 0] : List Int).head? := by
  constructor
  · rfl
  · decide

/-- C3 amended: RetrievePath walks `parent[start]`, `parent[parent[start]]`,
… collecting visited nodes until the sentinel `-1` or an already-collected
node is reached, and returns the reversed sequence, which runs toward
`start` along parent links (each consecutive pair `(a, b)` satisfies
`parent[b] = a`) and ends at `start`; the returned sequence never repeats a
node, so when the walk closes a cycle the sequence does not repeat its first
node at the end and its consecutive pairs cover all edges of the cycle
except the closing one. -/
theorem c3_retrievePath_amended (parent : List Int) (startNode : Int) (l : List Int)
    (h : retrievePath parent startNode = .ok l) :
    l ≠ [] ∧ l.Nodup ∧ l.getLast? = some startNode ∧
      l.Chain' (fun a b => atInt parent b = .ok a) := by
  unfold retrievePath at h
  obtain ⟨t, ht, hloop⟩ := except_bind_ok h
  have hres := rpLoop_ok (parent.length + 1) [startNode] t l hloop (by simp) (by simp) (by simp)
    (fun z hz => by
      rw [List.getLast?_singleton, Option.some.injEq] at hz
      rw [← hz]
      exact ht)
  obtain ⟨h1, h2, h3⟩ := hres
  rw [List.head?_cons] at h2
  refine ⟨?_, h1, h2, h3⟩
  intro hnil
  rw [hnil] at h2
  cases h2

/-- Witness for C3 amended at the concrete parent map `[1, 2, 0]`. -/
theorem c3_amended_witness :
    ([2, 1, 0] : List Int).Nodup ∧ ([2, 1, 0] : List Int).getLast? = some (0 : Int) :=
  ⟨(c3_retrievePath_amended [1, 2, 0] 0 [2, 1, 0] (by rfl)).2.1,
   (c3_retrievePath_amended [1, 2, 0] 0 [2, 1, 0] (by rfl)).2.2.1⟩

/-- C5: the minimum cost reported by CycleCancelling is exactly the sum of
`(-cost) * capacity` over the negative-cost edges of the final residual
graph. -/
theorem c5_cost_formula (g : Graph) (budget : Nat) (r : Graph) (mc : Int)
    (h : cycleCancelling g budget = .ok (r, mc)) : mc = costSum r := by
  unfold cycleCancelling at h
  obtain ⟨ek, hek, h2⟩ := except_bind_ok h
  obtain ⟨r2, hr2, h3⟩ := except_bind_ok h2
  rw [Except.ok.injEq, Prod.mk.injEq] at h3
  rw [← h3.2, h3.1]

/-- Witness for C5: the end-to-end 4-node example of the spec, where the
reported minimum cost is 6. -/
theorem c5_witness :
    cycleCancelling exG4 20 = .ok (exR4fin, 6) ∧ (6 : Int) = costSum exR4fin := by
  have h : cycleCancelling exG4 20 = .ok (exR4fin, 6) := by decide
  exact ⟨h, c5_cost_formula exG4 20 exR4fin 6 h⟩

theorem addEdge_artificial {g g2 : Graph} {s t cap w : Int}
    (h : addEdge g s t cap w = .ok g2) : g2.artificialNodes = g.artificialNodes := by
  obtain ⟨_, _, _, _, _, _, _, h8, _, _, _⟩ := addEdge_ok_elim h
  exact h8

theorem residualStep_artificial {g r r2 : Graph} {s : Int} {e : Edge}
    (h : residualStep g r s e = .ok r2) : r2.artificialNodes = r.artificialNodes := by
  unfold residualStep at h
  split_ifs at h with h1 h2
  · rw [Except.ok.injEq] at h
    rw [← h]
  · obtain ⟨r1, hr1, hr2⟩ := except_bind_ok h
    rw [addEdge_artificial hr2, addEdge_artificial hr1]
  · rw [addEdge_artificial h]

/-- Counterexample for C1: on the anti-parallel input `exG2` the residual
graph allocates an artificial node (the node count grows from 2 to 3), yet
the artificial-node map stays empty — no mapping `w -> (u→v edge)` is
recorded. -/
theorem c1_counterexample :
    getResidualGraph exG2 = .ok exR2 ∧ 2 < exR2.numNodes ∧
    hasEdge exR2 0 2 = true ∧ hasEdge exR2 2 1 = true ∧
    exR2.artificialNodes = [] := by
  refine ⟨by decide, by decide, by decide, by decide, rfl⟩

/-- C1 amended: when GetResidualGraph splits an anti-parallel pair through a
fresh artificial node it records nothing in the artificial-node map — the
map of every residual graph it produces is empty — and GetOptimalGraph
recovers the true original source of a flow-carrying residual edge whose
target is an artificial node not from that map but as the sink of the first
edge of the artificial node's adjacency list in the residual graph. -/
theorem c1_amended :
    (∀ g r : Graph, getResidualGraph g = .ok r → r.artificialNodes = []) ∧
    (∀ (r opt : Graph) (s : Int) (e e0 : Edge) (rest : List Edge),
      e.weight < 0 → (r.startingNumNodes : Int) ≤ e.sink →
      adjListOf r e.sink = e0 :: rest →
      optimalStep r opt s e = addEdge opt e0.sink s e.capacity (-e.weight)) ∧
    getOptimalGraph exR2fin exG2 = .ok exOpt2 := by
  refine ⟨?_, ?_, by decide⟩
  · intro g r h
    unfold getResidualGraph at h
    exact foldlM_invariant _ (fun r2 => r2.artificialNodes = [])
      (indexedEdges g)
      (fun x _ b b2 hstep hP => by
        show b2.artificialNodes = []
        rw [residualStep_artificial hstep]
        exact hP)
      (mkGraph g.adj.length) r h rfl
  · intro r opt s e e0 rest hw hsink hadj
    unfold optimalStep
    rw [if_neg (by omega), if_pos hsink, hadj]

/-- Witness for C1 amended, applied to the concrete residual construction
on `exG2`. -/
theorem c1_amended_witness : exR2.artificialNodes = [] :=
  c1_amended.1 exG2 exR2 (by decide)

/-- C2 (code bug): on the 2-node anti-parallel input `exG2` the minimum
cost reported by CycleCancelling is 4, but the sum of `flow * cost` over
the original edges computed from GetOptimalGraph's output is 2 — the two
reverse edges of the artificial split are both counted by the cost
summation, doubling the cost of the flow crossing the split pair. -/
theorem c2_cost_mismatch :
    cycleCancelling exG2 10 = .ok (exR2fin, 4) ∧
    getOptimalGraph exR2fin exG2 = .ok exOpt2 ∧
    flowCostSum exOpt2 = 2 ∧ costSum exR2fin = 4 ∧ (4 : Int) ≠ 2 := by
  refine ⟨by decide, by decide, by decide, by decide, by decide⟩

theorem setEdgeCapacity_caps {g g2 : Graph} {s t c : Int}
    (h : setEdgeCapacity g s t c = .ok g2) (hpos : PosCaps g) :
    ∀ (x : Int), ∀ e2 ∈ adjListOf g2 x,
      0 < e2.capacity ∨ (x = s ∧ e2.sink = t ∧ e2.capacity = c) := by
  obtain ⟨_, _, _, _, _, hself, hother⟩ := setEdgeCapacity_ok_elim h
  intro x e2 he2
  by_cases hx : x = s
  · rw [hx, hself] at he2
    rw [List.mem_map] at he2
    obtain ⟨e0, he0, hupd⟩ := he2
    by_cases hst : e0.sink = t
    · rw [if_pos hst] at hupd
      right
      rw [← hupd]
      exact ⟨hx, hst, rfl⟩
    · rw [if_neg hst] at hupd
      rw [← hupd]
      exact Or.inl (hpos s e0 he0)
  · rw [hother x hx] at he2
    exact Or.inl (hpos x e2 he2)

theorem setEdgeCapacity_posCaps {g g2 : Graph} {s t c : Int}
    (h : setEdgeCapacity g s t c = .ok g2) (hpos : PosCaps g) (hc : 0 < c) : PosCaps g2 := by
  intro x e2 he2
  rcases setEdgeCapacity_caps h hpos x e2 he2 with h1 | ⟨_, _, hcap⟩
  · exact h1
  · rw [hcap]
    exact hc

theorem removeEdge_posCaps_mixed {g g2 : Graph} {s t : Int}
    (h : removeEdge g s t = .ok g2)
    (hmix : ∀ (x : Int), ∀ e ∈ adjListOf g x, 0 < e.capacity ∨ (x = s ∧ e.sink = t)) :
    PosCaps g2 := by
  obtain ⟨_, _, _, _, hself, hother⟩ := removeEdge_ok_elim h
  intro x e2 he2
  by_cases hx : x = s
  · rw [hx, hself] at he2
    rw [List.mem_filter] at he2
    obtain ⟨hm, hf⟩ := he2
    rcases hmix s e2 hm with h1 | ⟨_, hsink⟩
    · exact h1
    · exact absurd hsink (by simpa using hf)
  · rw [hother x hx] at he2
    rcases hmix x e2 he2 with h1 | ⟨hxs, _⟩
    · exact h1
    · exact absurd hxs hx

theorem getEdge_posCap {g : Graph} {s t : Int} {e : Edge} (hpos : PosCaps g)
    (h : getEdge g s t = some e) : 0 < e.capacity :=
  hpos s e (getEdge_eq_some h).1

theorem residualStep_posCaps {g r r2 : Graph} {s : Int} {e : Edge}
    (h : residualStep g r s e = .ok r2) (hpos : PosCaps r) : PosCaps r2 := by
  unfold residualStep at h
  split_ifs at h with h1 h2
  · rw [Except.ok.injEq] at h
    rw [← h]
    exact hpos
  · obtain ⟨r1, hr1, hr2⟩ := except_bind_ok h
    exact addEdge_posCaps hr2 (addEdge_posCaps hr1 hpos (by omega)) (by omega)
  · exact addEdge_posCaps h hpos (by omega)

theorem sfpIter_posCaps {g g2 : Graph} {path : List Int} {flow : Int} {u : Nat}
    (h : sfpIter g path flow u = .ok g2) (hflow : 0 < flow) (hpos : PosCaps g) : PosCaps g2 := by
  unfold sfpIter at h
  obtain ⟨source, hsrc, h⟩ := except_bind_ok h
  obtain ⟨sink, hsnk, h⟩ := except_bind_ok h
  cases hge : getEdge g source sink with
  | none =>
    rw [hge] at h
    cases h
  | some e =>
    rw [hge] at h
    obtain ⟨capacity, hcap, h⟩ := except_bind_ok h
    obtain ⟨g1, hset, h⟩ := except_bind_ok h
    obtain ⟨gmid, hrem, h⟩ := except_bind_ok h
    have hcap0 : 0 ≤ capacity := by
      unfold sfpCapacity at hcap
      by_cases hw : e.weight < 0
      · rw [if_pos hw, Except.ok.injEq] at hcap
        have hec := getEdge_posCap hpos hge
        omega
      · rw [if_neg hw] at hcap
        by_cases hlt : e.capacity < flow
        · rw [if_pos hlt] at hcap
          cases hcap
        · rw [if_neg hlt, Except.ok.injEq] at hcap
          omega
    have hmidpos : PosCaps gmid := by
      unfold sfpRemove at hrem
      cases hge1 : getEdge g1 source sink with
      | none =>
        rw [hge1] at hrem
        cases hrem
      | some e2 =>
        rw [hge1] at hrem
        have hrem2 : (if e2.capacity = 0 then removeEdge g1 source sink
            else Except.ok g1) = Except.ok gmid := hrem
        have he2cap : e2.capacity = capacity := by
          have hsc := setEdgeCapacity_getEdge_self hset hge
          rw [hge1] at hsc
          rw [Option.some.injEq] at hsc
          rw [hsc]
        by_cases hz : e2.capacity = 0
        · rw [if_pos hz] at hrem2
          refine removeEdge_posCaps_mixed hrem2 ?_
          intro x e3 he3
          rcases setEdgeCapacity_caps hset hpos x e3 he3 with h1 | ⟨ha, hb, _⟩
          · exact Or.inl h1
          · exact Or.inr ⟨ha, hb⟩
        · rw [if_neg hz] at hrem2
          rw [Except.ok.injEq] at hrem2
          rw [← hrem2]
          have hcpos : 0 < capacity := by
            rw [he2cap] at hz
            omega
          exact setEdgeCapacity_posCaps hset hpos hcpos
    unfold sfpReverse at h
    by_cases hrev : hasEdge gmid sink source = false
    · rw [if_pos hrev] at h
      exact addEdge_posCaps h hmidpos hflow
    · rw [if_neg hrev] at h
      cases hger : getEdge gmid sink source with
      | none =>
        rw [hger] at h
        cases h
      | some er =>
        rw [hger] at h
        have h2 : setEdgeCapacity gmid sink source (er.capacity + flow) = .ok g2 := h
        have herpos : 0 < er.capacity := getEdge_posCap hmidpos hger
        exact setEdgeCapacity_posCaps h2 hmidpos (by omega)

theorem sfpLoop_posCaps {path : List Int} {flow : Int} (hflow : 0 < flow) :
    ∀ (k u : Nat) (g g2 : Graph), sfpLoop path flow k u g = .ok g2 → PosCaps g → PosCaps g2 := by
  intro k
  induction k with
  | zero =>
    intro u g g2 h hp
    cases h
    exact hp
  | succ k ih =>
    intro u g g2 h hp
    rw [sfpLoop_succ] at h
    obtain ⟨g1, h1, h2⟩ := except_bind_ok h
    exact ih (u + 1) g1 g2 h2 (sfpIter_posCaps h1 hflow hp)

/-- C8: every edge of a residual graph has strictly positive capacity —
GetResidualGraph only adds positive-capacity edges, and SendFlowInPath
removes any edge whose capacity reaches 0 and otherwise leaves only
positive capacities, so any augmentation with positive flow preserves the
invariant. -/
theorem c8_positive_capacities :
    (∀ g r : Graph, getResidualGraph g = .ok r → PosCaps r) ∧
    (∀ (g : Graph) (path : List Int) (flow : Int) (g2 : Graph),
      0 < flow → PosCaps g → sendFlowInPath g path flow = .ok g2 → PosCaps g2) := by
  constructor
  · intro g r h
    unfold getResidualGraph at h
    exact foldlM_invariant _ PosCaps (indexedEdges g)
      (fun x _ b b2 hstep hP => residualStep_posCaps hstep hP)
      (mkGraph g.adj.length) r h (posCaps_mkGraph _)
  · intro g path flow g2 hflow hpos h
    unfold sendFlowInPath at h
    exact sfpLoop_posCaps hflow (uIters path) 0 g g2 h hpos

set_option maxRecDepth 4000 in
/-- Witness for C8: the residual graph of `exG2` and its state after the
augmentation of the path `0→2→1` with flow 2. -/
theorem c8_witness : PosCaps exR2 ∧ PosCaps exR2fin := by
  have h1 : PosCaps exR2 := c8_positive_capacities.1 exG2 exR2 (by decide)
  have h2 : PosCaps exR2fin :=
    c8_positive_capacities.2 exR2 [0, 2, 1] 2 exR2fin (by decide) h1 (by decide)
  exact ⟨h1, h2⟩

theorem WF_sink_valid {g : Graph} (hwf : WF g) {x : Int} {e : Edge} (he : e ∈ adjListOf g x) :
    0 ≤ e.sink ∧ e.sink < (g.adj.length : Int) := by
  have hne : adjListOf g x ≠ [] := by
    intro hc
    rw [hc] at he
    cases he
  exact (hwf _ (adjListOf_mem_adj hne)).1 e he

theorem getEdge_none_of_hasEdge_false {g : Graph} {s t : Int} (h : hasEdge g s t = false) :
    getEdge g s t = none := hasEdge_false_find? h

/-- C4: the effect of one loop iteration of SendFlowInPath on the pair
`(a, b)` of the path — a negative-cost traversed edge has its capacity
increased by `flow`; a nonnegative-cost edge rejects `flow` above its
capacity with `InvalidArgument`, otherwise its capacity drops by `flow` and
the edge is deleted exactly when the new capacity is 0; afterwards the
reverse edge `b → a` is created with capacity `flow` and cost `-weight`
when absent, or its capacity is increased by `flow` when present. -/
theorem c4_sendFlow_pair (g : Graph) (path : List Int) (flow : Int) (u : Nat) (a b : Int)
    (ha : atNat path u = .ok a) (hb : atNat path (u + 1) = .ok b)
    (hab : a ≠ b) (e : Edge) (he : getEdge g a b = some e)
    (hwf : WF g) (hpos : PosCaps g) (hflow : 0 < flow) :
    ((0 ≤ e.weight ∧ e.capacity < flow) →
      sfpIter g path flow u = .error .invalidArgument) ∧
    ((e.weight < 0 ∨ flow ≤ e.capacity) →
      ∃ g2, sfpIter g path flow u = .ok g2 ∧
        ((if e.weight < 0 then e.capacity + flow else e.capacity - flow) = 0 →
          hasEdge g2 a b = false) ∧
        ((if e.weight < 0 then e.capacity + flow else e.capacity - flow) ≠ 0 →
          getEdge g2 a b =
            some { e with capacity :=
              (if e.weight < 0 then e.capacity + flow else e.capacity - flow) }) ∧
        (hasEdge g b a = false → getEdge g2 b a = some ⟨b, a, flow, -e.weight⟩) ∧
        (∀ er, getEdge g b a = some er →
          getEdge g2 b a = some { er with capacity := er.capacity + flow })) := by
  have hstep : sfpIter g path flow u =
      (sfpCapacity e flow >>= fun capacity =>
       setEdgeCapacity g a b capacity >>= fun g1 =>
       sfpRemove g1 a b >>= fun g2 =>
       sfpReverse g2 a b flow e.weight) := by
    unfold sfpIter
    rw [ha, hb]
    show (match getEdge g a b with
      | none => Except.error Err.invalidArgument
      | some e =>
        sfpCapacity e flow >>= fun capacity =>
        setEdgeCapacity g a b capacity >>= fun g1 =>
        sfpRemove g1 a b >>= fun g2 =>
        sfpReverse g2 a b flow e.weight) = _
    rw [he]
  have hecap : 0 < e.capacity := getEdge_posCap hpos he
  have hedge : hasEdge g a b = true := hasEdge_iff_getEdge.mpr ⟨e, he⟩
  have hbounds := hasEdge_bounds hedge
  have hbval := WF_sink_valid hwf (getEdge_eq_some he).1
  have hbsink : e.sink = b := (getEdge_eq_some he).2
  rw [hbsink] at hbval
  constructor
  · rintro ⟨hw0, hlt⟩
    have hc : sfpCapacity e flow = .error .invalidArgument := by
      unfold sfpCapacity
      rw [if_neg (by omega), if_pos hlt]
    rw [hstep, hc]
    rfl
  · intro hcase
    have hcap : sfpCapacity e flow =
        .ok (if e.weight < 0 then e.capacity + flow else e.capacity - flow) := by
      unfold sfpCapacity
      by_cases hw : e.weight < 0
      · rw [if_pos hw, if_pos hw]
      · rw [if_neg hw, if_neg hw]
        have hle : flow ≤ e.capacity := by
          rcases hcase with h1 | h1
          · exact absurd h1 hw
          · exact h1
        rw [if_neg (by omega)]
    set nc := (if e.weight < 0 then e.capacity + flow else e.capacity - flow) with hnc
    have hnc0 : 0 ≤ nc := by
      rw [hnc]
      by_cases hw : e.weight < 0
      · rw [if_pos hw]
        omega
      · rw [if_neg hw]
        have hle : flow ≤ e.capacity := by
          rcases hcase with h1 | h1
          · exact absurd h1 hw
          · exact h1
        omega
    obtain ⟨g1, hset⟩ := setEdgeCapacity_ok_intro hedge hnc0
    have he1 : getEdge g1 a b = some { e with capacity := nc } :=
      setEdgeCapacity_getEdge_self hset he
    have hne_ba : ¬(b = a ∧ a = b) := fun hc => hab hc.1.symm
    have hne_ab : ¬(a = b ∧ b = a) := fun hc => hab hc.1
    -- the removal phase
    have hremres : ∃ gmid, sfpRemove g1 a b = .ok gmid ∧
        (nc = 0 → hasEdge gmid a b = false) ∧
        (nc ≠ 0 → getEdge gmid a b = some { e with capacity := nc }) ∧
        hasEdge gmid b a = hasEdge g b a ∧
        getEdge gmid b a = getEdge g b a ∧
        gmid.adj.length = g.adj.length := by
      have hlen1 : g1.adj.length = g.adj.length := by
        obtain ⟨_, _, _, _, hl, _, _⟩ := setEdgeCapacity_ok_elim hset
        exact hl
      have hhe1 : hasEdge g1 a b = hasEdge g a b := setEdgeCapacity_hasEdge hset a b
      have hba1 : hasEdge g1 b a = hasEdge g b a := setEdgeCapacity_hasEdge hset b a
      have hgba1 : getEdge g1 b a = getEdge g b a := setEdgeCapacity_getEdge_other hset b a hne_ba
      by_cases hz : nc = 0
      · obtain ⟨gmid, hrm⟩ := removeEdge_ok_intro (by rw [hhe1]; exact hedge)
        obtain ⟨_, _, _, hlenr, _, _⟩ := removeEdge_ok_elim hrm
        refine ⟨gmid, ?_, ?_, ?_, ?_, ?_, ?_⟩
        · unfold sfpRemove
          rw [he1]
          show (if nc = 0 then removeEdge g1 a b else Except.ok g1) = _
          rw [if_pos hz, hrm]
        · intro _
          exact removeEdge_hasEdge_self hrm
        · intro hc
          exact absurd hz hc
        · rw [removeEdge_hasEdge_other hrm b a hne_ba]
          exact hba1
        · rw [removeEdge_getEdge_other hrm b a hne_ba]
          exact hgba1
        · rw [hlenr]
          exact hlen1
      · refine ⟨g1, ?_, ?_, ?_, hba1, hgba1, hlen1⟩
        · unfold sfpRemove
          rw [he1]
          show (if nc = 0 then removeEdge g1 a b else Except.ok g1) = _
          rw [if_neg hz]
        · intro hc
          exact absurd hc hz
        · intro _
          exact he1
    obtain ⟨gmid, hrem, hdel, hkeep, hbam, hgbam, hlenm⟩ := hremres
    -- the reverse phase
    by_cases hrev : hasEdge g b a = false
    · have hadd0 : hasEdge gmid b a = false := by
        rw [hbam]
        exact hrev
      obtain ⟨g2, hadd⟩ := addEdge_ok_intro (w := -e.weight) hbval.1 hbounds.1
        (by rw [hlenm]; omega) (by rw [hlenm]; omega) hadd0 (le_of_lt hflow)
      refine ⟨g2, ?_, ?_, ?_, ?_, ?_⟩
      · rw [hstep, hcap]
        show (setEdgeCapacity g a b nc >>= fun g1 =>
          sfpRemove g1 a b >>= fun gm => sfpReverse gm a b flow e.weight) = _
        rw [hset]
        show (sfpRemove g1 a b >>= fun gm => sfpReverse gm a b flow e.weight) = _
        rw [hrem]
        show sfpReverse gmid a b flow e.weight = _
        unfold sfpReverse
        rw [if_pos hadd0]
        exact hadd
      · intro hz
        rw [Bool.eq_false_iff]
        intro hc
        rcases (addEdge_hasEdge hadd a b).mp hc with h1 | h2
        · rw [hdel hz] at h1
          cases h1
        · exact hab h2.1
      · intro hz
        rw [addEdge_getEdge_other hadd a b hne_ab]
        exact hkeep hz
      · intro _
        exact addEdge_getEdge_self hadd
      · intro er her
        rw [getEdge_none_of_hasEdge_false hrev] at her
        cases her
    · have hbatrue : hasEdge g b a = true := by
        revert hrev
        cases hasEdge g b a <;> simp
      obtain ⟨er, her⟩ := hasEdge_iff_getEdge.mp hbatrue
      have herpos : 0 < er.capacity := getEdge_posCap hpos her
      have hmidba : hasEdge gmid b a = true := by
        rw [hbam]
        exact hbatrue
      have hmidger : getEdge gmid b a = some er := by
        rw [hgbam]
        exact her
      obtain ⟨g2, hset2⟩ := setEdgeCapacity_ok_intro hmidba
        (show (0 : Int) ≤ er.capacity + flow by omega)
      refine ⟨g2, ?_, ?_, ?_, ?_, ?_⟩
      · rw [hstep, hcap]
        show (setEdgeCapacity g a b nc >>= fun g1 =>
          sfpRemove g1 a b >>= fun gm => sfpReverse gm a b flow e.weight) = _
        rw [hset]
        show (sfpRemove g1 a b >>= fun gm => sfpReverse gm a b flow e.weight) = _
        rw [hrem]
        show sfpReverse gmid a b flow e.weight = _
        unfold sfpReverse
        rw [if_neg (by rw [hmidba]; simp), hmidger]
        show setEdgeCapacity gmid b a (er.capacity + flow) = _
        exact hset2
      · intro hz
        rw [setEdgeCapacity_hasEdge hset2 a b]
        exact hdel hz
      · intro hz
        rw [setEdgeCapacity_getEdge_other hset2 a b hne_ab]
        exact hkeep hz
      · intro hc
        rw [hc] at hbatrue
        cases hbatrue
      · intro er2 her2
        rw [her] at her2
        rw [Option.some.injEq] at her2
        rw [← her2]
        exact setEdgeCapacity_getEdge_self hset2 hmidger

/-- Witness for C4: the pair `(0, 2)` of the path `0→2→1` on `exR2` with
flow 2 — the forward edge is saturated and deleted, and the reverse edge
`2→0` is created with capacity 2 and cost -1. -/
theorem c4_witness :
    sfpIter exR2 [0, 2, 1] 2 0 = .ok exMid2 ∧
    hasEdge exMid2 0 2 = false ∧
    getEdge exMid2 2 0 = some ⟨2, 0, 2, -1⟩ := by
  have hres := (c4_sendFlow_pair exR2 [0, 2, 1] 2 0 0 2 (by decide) (by decide) (by decide)
    ⟨0, 2, 2, 1⟩ (by decide) (by decide) ?hpos (by decide)).2 (by decide)
  case hpos =>
    intro x e he
    have hx := posCaps_of_adj (g := exR2) (by decide)
    exact hx x e he
  obtain ⟨g2, hrun, hdel, _, hcreate, _⟩ := hres
  have hg2 : g2 = exMid2 := by
    have hd : sfpIter exR2 [0, 2, 1] 2 0 = .ok exMid2 := by decide
    rw [hd] at hrun
    rw [Except.ok.injEq] at hrun
    exact hrun.symm
  rw [hg2] at hdel hcreate
  exact ⟨by rw [← hg2]; exact hrun, hdel (by decide), hcreate (by decide)⟩

theorem sfpLoopAcc_succ (path : List Int) (flow : Int) (k u : Nat) (g : Graph)
    (rem add : Int) :
    sfpLoopAcc path flow (k + 1) u g rem add =
      sfpIterAcc g path flow u >>= fun x =>
        sfpLoopAcc path flow k (u + 1) x.1 (rem + x.2.1) (add + x.2.2) := rfl

theorem sfpIterAcc_spec {g : Graph} {path : List Int} {flow : Int} {u : Nat}
    {g3 : Graph} {rem add : Int}
    (h : sfpIterAcc g path flow u = .ok (g3, rem, add)) :
    sfpIter g path flow u = .ok g3 ∧ rem = add := by
  unfold sfpIterAcc at h
  obtain ⟨source, hsrc, h⟩ := except_bind_ok h
  obtain ⟨sink, hsnk, h⟩ := except_bind_ok h
  cases hge : getEdge g source sink with
  | none =>
    rw [hge] at h
    cases h
  | some e =>
    rw [hge] at h
    obtain ⟨capacity, hcap, h⟩ := except_bind_ok h
    obtain ⟨g1, hset, h⟩ := except_bind_ok h
    obtain ⟨gmid, hrem, h⟩ := except_bind_ok h
    obtain ⟨gfin, hrvs, h⟩ := except_bind_ok h
    rw [Except.ok.injEq] at h
    have hg3 : gfin = g3 := congrArg Prod.fst h
    have hrem2 : (if 0 ≤ e.weight
        then capOf g source sink - capOf gmid source sink else 0) = rem :=
      congrArg (fun p => p.2.1) h
    have hadd2 : (if 0 ≤ e.weight
        then capOf gfin sink source - capOf gmid sink source else 0) = add :=
      congrArg (fun p => p.2.2) h
    constructor
    · unfold sfpIter
      rw [hsrc]
      show (atNat path (u + 1) >>= fun sink =>
        match getEdge g source sink with
        | none => Except.error Err.invalidArgument
        | some e =>
          sfpCapacity e flow >>= fun capacity =>
          setEdgeCapacity g source sink capacity >>= fun g1 =>
          sfpRemove g1 source sink >>= fun g2 =>
          sfpReverse g2 source sink flow e.weight) = _
      rw [hsnk]
      show (match getEdge g source sink with
        | none => Except.error Err.invalidArgument
        | some e =>
          sfpCapacity e flow >>= fun capacity =>
          setEdgeCapacity g source sink capacity >>= fun g1 =>
          sfpRemove g1 source sink >>= fun g2 =>
          sfpReverse g2 source sink flow e.weight) = _
      rw [hge]
      show (sfpCapacity e flow >>= fun capacity =>
        setEdgeCapacity g source sink capacity >>= fun g1 =>
        sfpRemove g1 source sink >>= fun g2 =>
        sfpReverse g2 source sink flow e.weight) = _
      rw [hcap]
      show (setEdgeCapacity g source sink capacity >>= fun g1 =>
        sfpRemove g1 source sink >>= fun g2 =>
        sfpReverse g2 source sink flow e.weight) = _
      rw [hset]
      show (sfpRemove g1 source sink >>= fun g2 =>
        sfpReverse g2 source sink flow e.weight) = _
      rw [hrem]
      show sfpReverse gmid source sink flow e.weight = _
      rw [hrvs, hg3]
    · rw [← hrem2, ← hadd2]
      by_cases hw : 0 ≤ e.weight
      · rw [if_pos hw, if_pos hw]
        have hcapval : capacity = e.capacity - flow := by
          unfold sfpCapacity at hcap
          rw [if_neg (by omega)] at hcap
          by_cases hlt : e.capacity < flow
          · rw [if_pos hlt] at hcap
            cases hcap
          · rw [if_neg hlt, Except.ok.injEq] at hcap
            omega
        have hcg : capOf g source sink = e.capacity := by
          unfold capOf
          rw [hge]
        have he1 : getEdge g1 source sink = some { e with capacity := capacity } :=
          setEdgeCapacity_getEdge_self hset hge
        have hcm : capOf gmid source sink = capacity := by
          unfold sfpRemove at hrem
          rw [he1] at hrem
          have hrem3 : (if ({ e with capacity := capacity } : Edge).capacity = 0
              then removeEdge g1 source sink else Except.ok g1) = Except.ok gmid := hrem
          by_cases hz : capacity = 0
          · rw [if_pos (show ({ e with capacity := capacity } : Edge).capacity = 0 from hz)]
              at hrem3
            unfold capOf
            rw [getEdge_none_of_hasEdge_false (removeEdge_hasEdge_self hrem3)]
            show (0 : Int) = capacity
            omega
          · rw [if_neg (show ¬ ({ e with capacity := capacity } : Edge).capacity = 0 from hz)]
              at hrem3
            rw [Except.ok.injEq] at hrem3
            rw [← hrem3]
            unfold capOf
            rw [he1]
        have hadd3 : capOf gfin sink source - capOf gmid sink source = flow := by
          unfold sfpReverse at hrvs
          by_cases hba : hasEdge gmid sink source = false
          · rw [if_pos hba] at hrvs
            have h0 : capOf gmid sink source = 0 := by
              unfold capOf
              rw [getEdge_none_of_hasEdge_false hba]
            have h1 : capOf gfin sink source = flow := by
              unfold capOf
              rw [addEdge_getEdge_self hrvs]
            omega
          · rw [if_neg hba] at hrvs
            cases hger : getEdge gmid sink source with
            | none =>
              rw [hger] at hrvs
              cases hrvs
            | some er =>
              rw [hger] at hrvs
              have hrvs2 : setEdgeCapacity gmid sink source (er.capacity + flow) =
                  .ok gfin := hrvs
              have h0 : capOf gmid sink source = er.capacity := by
                unfold capOf
                rw [hger]
              have h1 : capOf gfin sink source = er.capacity + flow := by
                unfold capOf
                rw [setEdgeCapacity_getEdge_self hrvs2 hger]
              omega
        rw [hcg, hcm, hadd3, hcapval]
        omega
      · rw [if_neg hw, if_neg hw]

theorem sfpLoopAcc_spec {path : List Int} {flow : Int} :
    ∀ (k u : Nat) (g : Graph) (rem add : Int) (g3 : Graph) (rem2 add2 : Int),
    sfpLoopAcc path flow k u g rem add = .ok (g3, rem2, add2) →
    sfpLoop path flow k u g = .ok g3 ∧ rem2 - rem = add2 - add := by
  intro k
  induction k with
  | zero =>
    intro u g rem add g3 rem2 add2 h
    rw [show sfpLoopAcc path flow 0 u g rem add = .ok (g, rem, add) from rfl,
      Except.ok.injEq] at h
    have h1 : g = g3 := congrArg Prod.fst h
    have h2 : rem = rem2 := congrArg (fun p => p.2.1) h
    have h3 : add = add2 := congrArg (fun p => p.2.2) h
    rw [← h1, ← h2, ← h3]
    exact ⟨rfl, by omega⟩
  | succ k ih =>
    intro u g rem add g3 rem2 add2 h
    rw [sfpLoopAcc_succ] at h
    obtain ⟨x, hx, hrest⟩ := except_bind_ok h
    obtain ⟨gx, rx, ax⟩ := x
    obtain ⟨hiter, hra⟩ := sfpIterAcc_spec hx
    obtain ⟨hloop, hdiff⟩ := ih (u + 1) gx (rem + rx) (add + ax) g3 rem2 add2 hrest
    constructor
    · rw [sfpLoop_succ, hiter]
      exact hloop
    · omega

/-- C6: a single call of SendFlowInPath is capacity-conserving — over the
pairs of the path whose traversed edge has nonnegative cost, the total
capacity removed from those forward edges equals the total capacity added
to their reverse edges (both totals measured on the actual graph states by
the instrumented run, which computes the same graph as SendFlowInPath). -/
theorem c6_capacity_conserving (g : Graph) (path : List Int) (flow : Int)
    (g2 : Graph) (rem add : Int)
    (h : sendFlowAccounting g path flow = .ok (g2, rem, add)) :
    sendFlowInPath g path flow = .ok g2 ∧ rem = add := by
  unfold sendFlowAccounting at h
  obtain ⟨h1, h2⟩ := sfpLoopAcc_spec (uIters path) 0 g 0 0 g2 rem add h
  constructor
  · unfold sendFlowInPath
    exact h1
  · omega

set_option maxRecDepth 4000 in
/-- Witness for C6: augmenting the path `0→2→1` of `exR2` with flow 2
removes 4 units of forward capacity and adds 4 units of reverse
capacity. -/
theorem c6_witness :
    sendFlowAccounting exR2 [0, 2, 1] 2 = .ok (exR2fin, 4, 4) ∧
    sendFlowInPath exR2 [0, 2, 1] 2 = .ok exR2fin ∧ (4 : Int) = 4 := by
  have h : sendFlowAccounting exR2 [0, 2, 1] 2 = .ok (exR2fin, 4, 4) := by decide
  have h2 := c6_capacity_conserving exR2 [0, 2, 1] 2 exR2fin 4 4 h
  exact ⟨h, h2.1, h2.2⟩

theorem addEdge_len_le {g g2 : Graph} {s t cap w : Int} (h : addEdge g s t cap w = .ok g2) :
    g.adj.length ≤ g2.adj.length := by
  obtain ⟨_, _, _, _, _, _, _, _, h9, _, _⟩ := addEdge_ok_elim h
  rw [h9]
  exact le_max_left _ _

theorem indexedEdges_mem {g : Graph} {s : Int} {e : Edge} (h : (s, e) ∈ indexedEdges g) :
    0 ≤ s ∧ s.toNat < g.adj.length ∧ e ∈ adjListOf g s := by
  unfold indexedEdges indexedEdgesN at h
  rw [List.mem_flatMap] at h
  obtain ⟨i, hi, hmem⟩ := h
  rw [List.mem_range] at hi
  rw [List.mem_map] at hmem
  obtain ⟨e0, he0, heq⟩ := hmem
  rw [Prod.mk.injEq] at heq
  obtain ⟨heq1, heq2⟩ := heq
  rw [← heq1]
  refine ⟨by omega, by simpa using hi, ?_⟩
  rw [← heq2]
  exact he0

theorem indexedEdges_mem_intro {g : Graph} {s : Int} {e : Edge} (h0 : 0 ≤ s)
    (h1 : s.toNat < g.adj.length) (h2 : e ∈ adjListOf g s) : (s, e) ∈ indexedEdges g := by
  unfold indexedEdges indexedEdgesN
  rw [List.mem_flatMap]
  refine ⟨s.toNat, List.mem_range.mpr h1, ?_⟩
  rw [List.mem_map]
  refine ⟨e, ?_, ?_⟩
  · rw [Int.toNat_of_nonneg h0]
    exact h2
  · rw [Prod.mk.injEq]
    exact ⟨Int.toNat_of_nonneg h0, rfl⟩

theorem residualStep_mono {g rr rr2 : Graph} {s : Int} {e : Edge}
    (h : residualStep g rr s e = .ok rr2) {a b : Int} (hab : hasEdge rr a b = true) :
    hasEdge rr2 a b = true := by
  unfold residualStep at h
  split_ifs at h with h1 h2
  · rw [Except.ok.injEq] at h
    rw [← h]
    exact hab
  · obtain ⟨r1, ha1, ha2⟩ := except_bind_ok h
    exact (addEdge_hasEdge ha2 a b).mpr
      (Or.inl ((addEdge_hasEdge ha1 a b).mpr (Or.inl hab)))
  · exact (addEdge_hasEdge h a b).mpr (Or.inl hab)

theorem residualStep_inv {g : Graph} {s : Int} {e : Edge}
    (hmem : (s, e) ∈ indexedEdges g) {rr rr2 : Graph}
    (hstep : residualStep g rr s e = .ok rr2)
    (hP : g.adj.length ≤ rr.adj.length ∧ ∀ a b : Int, hasEdge rr a b = true →
      ((g.adj.length : Int) ≤ a ∨ (g.adj.length : Int) ≤ b ∨
        (hasEdge g a b = true ∧ ¬(a < b ∧ hasEdge g b a = true)))) :
    g.adj.length ≤ rr2.adj.length ∧ ∀ a b : Int, hasEdge rr2 a b = true →
      ((g.adj.length : Int) ≤ a ∨ (g.adj.length : Int) ≤ b ∨
        (hasEdge g a b = true ∧ ¬(a < b ∧ hasEdge g b a = true))) := by
  obtain ⟨hlen, hinv⟩ := hP
  unfold residualStep at hstep
  split_ifs at hstep with h1 h2
  · rw [Except.ok.injEq] at hstep
    rw [← hstep]
    exact ⟨hlen, hinv⟩
  · obtain ⟨r1, ha1, ha2⟩ := except_bind_ok hstep
    have hlen2 : g.adj.length ≤ rr2.adj.length :=
      le_trans hlen (le_trans (addEdge_len_le ha1) (addEdge_len_le ha2))
    refine ⟨hlen2, ?_⟩
    intro a b hab
    rcases (addEdge_hasEdge ha2 a b).mp hab with hab1 | ⟨haw, _⟩
    · rcases (addEdge_hasEdge ha1 a b).mp hab1 with hab0 | ⟨_, hbw⟩
      · exact hinv a b hab0
      · right
        left
        rw [hbw]
        exact_mod_cast hlen
    · left
      rw [haw]
      exact_mod_cast hlen
  · have hsv : hasEdge g s e.sink = true := by
      obtain ⟨_, _, hm⟩ := indexedEdges_mem hmem
      exact hasEdge_of_mem hm
    refine ⟨le_trans hlen (addEdge_len_le hstep), ?_⟩
    intro a b hab
    rcases (addEdge_hasEdge hstep a b).mp hab with hab0 | ⟨has, hbs⟩
    · exact hinv a b hab0
    · right
      right
      rw [has, hbs]
      exact ⟨hsv, h2⟩

/-- C7: for any anti-parallel pair `u→v`, `v→u` (`u < v`) of the input
graph, the residual graph never contains the direct edge `u→v` (so the pair
is never simultaneously present); the lower-indexed direction is bridged by
an artificial node when it has positive capacity, and the higher-indexed
direction `v→u` is copied directly (only the lower-indexed direction
triggers the split). -/
theorem c7_no_antiparallel (g r : Graph) (hres : getResidualGraph g = .ok r)
    (u v : Int) (huv : u < v) (h1 : hasEdge g u v = true) (h2 : hasEdge g v u = true) :
    (hasEdge r u v = false ∧ ¬(hasEdge r u v = true ∧ hasEdge r v u = true)) ∧
    (∀ e, getEdge g u v = some e → 0 < e.capacity →
      ∃ w : Int, (g.adj.length : Int) ≤ w ∧ hasEdge r u w = true ∧ hasEdge r w v = true) ∧
    (∀ e, getEdge g v u = some e → 0 < e.capacity → hasEdge r v u = true) := by
  unfold getResidualGraph at hres
  have hinit : g.adj.length ≤ (mkGraph g.adj.length).adj.length ∧
      (∀ a b : Int, hasEdge (mkGraph g.adj.length) a b = true →
        ((g.adj.length : Int) ≤ a ∨ (g.adj.length : Int) ≤ b ∨
          (hasEdge g a b = true ∧ ¬(a < b ∧ hasEdge g b a = true)))) := by
    constructor
    · unfold mkGraph
      simp
    · intro a b hab
      rw [mkGraph_hasEdge] at hab
      cases hab
  have hstep : ∀ x ∈ indexedEdges g, ∀ b b2,
      (fun rr (se : Int × Edge) => residualStep g rr se.1 se.2) b x = .ok b2 →
      (fun rr => g.adj.length ≤ rr.adj.length ∧ ∀ a c : Int, hasEdge rr a c = true →
        ((g.adj.length : Int) ≤ a ∨ (g.adj.length : Int) ≤ c ∨
          (hasEdge g a c = true ∧ ¬(a < c ∧ hasEdge g c a = true)))) b →
      (fun rr => g.adj.length ≤ rr.adj.length ∧ ∀ a c : Int, hasEdge rr a c = true →
        ((g.adj.length : Int) ≤ a ∨ (g.adj.length : Int) ≤ c ∨
          (hasEdge g a c = true ∧ ¬(a < c ∧ hasEdge g c a = true)))) b2 := by
    intro x hx b b2 hs hP
    obtain ⟨s0, e0⟩ := x
    exact residualStep_inv hx hs hP
  have hPfin := foldlM_invariant _ _ (indexedEdges g) hstep
    (mkGraph g.adj.length) r hres hinit
  have hub := hasEdge_bounds h1
  have hvb := hasEdge_bounds h2
  have huvlt : u < (g.adj.length : Int) := by omega
  have hvlt : v < (g.adj.length : Int) := by omega
  have hnouv : hasEdge r u v = false := by
    rw [Bool.eq_false_iff]
    intro hc
    rcases hPfin.2 u v hc with hcl | hcl | ⟨_, hno⟩
    · omega
    · omega
    · exact hno ⟨huv, h2⟩
  refine ⟨⟨hnouv, ?_⟩, ?_, ?_⟩
  · rintro ⟨hc, _⟩
    rw [hnouv] at hc
    cases hc
  · intro e he hcap
    have hmem : (u, e) ∈ indexedEdges g :=
      indexedEdges_mem_intro hub.1 hub.2 (getEdge_eq_some he).1
    have hsink : e.sink = v := (getEdge_eq_some he).2
    obtain ⟨b1, b2, l2, hPb1, hs0, hfold⟩ := foldlM_reach _ _ (indexedEdges g) hstep
      (mkGraph g.adj.length) r (u, e) hres hinit hmem
    have hs : residualStep g b1 u e = .ok b2 := hs0
    unfold residualStep at hs
    rw [if_neg (by omega), if_pos (by rw [hsink]; exact ⟨huv, h2⟩)] at hs
    obtain ⟨r1, ha1, ha2⟩ := except_bind_ok hs
    refine ⟨(b1.numNodes : Int), ?_, ?_, ?_⟩
    · exact_mod_cast hPb1.1
    · have huw : hasEdge b2 u (b1.numNodes : Int) = true :=
        (addEdge_hasEdge ha2 u (b1.numNodes : Int)).mpr
          (Or.inl ((addEdge_hasEdge ha1 u (b1.numNodes : Int)).mpr (Or.inr ⟨rfl, rfl⟩)))
      exact foldlM_invariant _ (fun rr => hasEdge rr u (b1.numNodes : Int) = true) l2
        (fun x _ c1 c2 hsx hPx => by
          obtain ⟨sx, ex⟩ := x
          exact residualStep_mono hsx hPx) b2 r hfold huw
    · have hwv : hasEdge b2 (b1.numNodes : Int) v = true := by
        have := (addEdge_hasEdge ha2 (b1.numNodes : Int) e.sink).mpr (Or.inr ⟨rfl, rfl⟩)
        rw [hsink] at this
        exact this
      exact foldlM_invariant _ (fun rr => hasEdge rr (b1.numNodes : Int) v = true) l2
        (fun x _ c1 c2 hsx hPx => by
          obtain ⟨sx, ex⟩ := x
          exact residualStep_mono hsx hPx) b2 r hfold hwv
  · intro e he hcap
    have hmem : (v, e) ∈ indexedEdges g :=
      indexedEdges_mem_intro hvb.1 hvb.2 (getEdge_eq_some he).1
    have hsink : e.sink = u := (getEdge_eq_some he).2
    obtain ⟨b1, b2, l2, hPb1, hs0, hfold⟩ := foldlM_reach _ _ (indexedEdges g) hstep
      (mkGraph g.adj.length) r (v, e) hres hinit hmem
    have hs : residualStep g b1 v e = .ok b2 := hs0
    unfold residualStep at hs
    rw [if_neg (by omega), if_neg (by rw [hsink]; rintro ⟨hvu, _⟩; omega)] at hs
    have hvu : hasEdge b2 v u = true := by
      have := (addEdge_hasEdge hs v e.sink).mpr (Or.inr ⟨rfl, rfl⟩)
      rw [hsink] at this
      exact this
    exact foldlM_invariant _ (fun rr => hasEdge rr v u = true) l2
      (fun x _ c1 c2 hsx hPx => by
        obtain ⟨sx, ex⟩ := x
        exact residualStep_mono hsx hPx) b2 r hfold hvu

/-- Witness for C7: the anti-parallel pair `0→1`, `1→0` of `exG2` in its
residual graph `exR2`. -/
theorem c7_witness : hasEdge exR2 0 1 = false ∧ hasEdge exR2 1 0 = true := by
  have h := c7_no_antiparallel exG2 exR2 (by decide) 0 1 (by decide) (by decide) (by decide)
  exact ⟨h.1.1, h.2.2 ⟨1, 0, 2, 1⟩ (by decide) (by decide)⟩

end MCF
